import Mathlib

set_option maxHeartbeats 2000000
set_option maxRecDepth 8000

/-! Shallow embedding of the chess legality engine (src/games/chess_rules.py),
the bot move generator (src/games/chess_bot.py) and the initial board layout
(src/games/models.py, ChessGame.initialize_board).

A square such as "e4" is embedded as a pair of integers (file, rank) with
file a..h recoded as 1..8; the source's single-character file arithmetic via
ord/chr is a translation of this integer arithmetic.  A Python position dict
is embedded as an insertion-ordered association list; Python dict update
replaces a binding in place and appends fresh keys at the end, and deletion
removes the binding, which `setKey` and `delKey` below implement. -/

/-- Piece color: the source encodes colors by the first character, w or b,
of the two-character piece code (normalizing the words white/black to the
same two values wherever they are accepted). -/
inductive PColor
| w
| b
deriving DecidableEq, Repr

/-- Piece type: the second character of the two-character piece code. -/
inductive PType
| p
| n
| b
| r
| q
| k
deriving DecidableEq, Repr

/-- A two-character piece code such as wp or bk. -/
structure Piece where
  color : PColor
  ptype : PType
deriving DecidableEq, Repr

/-- A board square: (file, rank), file a..h recoded as the integers 1..8.
Coordinates outside that range denote off-board squares such as "i2". -/
abbrev Square := Int × Int

/-- A candidate move: (from-square, to-square). -/
abbrev Move := Square × Square

/-- A position: insertion-ordered association list embedding the Python
board_state dict (occupied squares only). -/
abbrev Board := List (Square × Piece)

/-- The bounds test `'a' <= col <= 'h' and 1 <= row <= 8` used throughout
both source modules. -/
def onBoard (s : Square) : Bool :=
  decide (1 ≤ s.1 ∧ s.1 ≤ 8 ∧ 1 ≤ s.2 ∧ s.2 ≤ 8)

/-- Dict membership / indexing: `pos in board_state` and `board_state[pos]`. -/
def lookup : Board → Square → Option Piece
  | [], _ => none
  | e :: rest, s => if e.1 = s then some e.2 else lookup rest s

/-- Dict assignment `d[key] = value`: replace an existing binding in place,
otherwise append the fresh binding at the end. -/
def setKey : Board → Square → Piece → Board
  | [], s, pc => [(s, pc)]
  | e :: rest, s, pc => if e.1 = s then (s, pc) :: rest else e :: setKey rest s pc

/-- Dict deletion `del d[key]`: drop the binding for the key (dropping every
binding of the key, which agrees with Python on dicts, whose keys are unique). -/
def delKey : Board → Square → Board
  | [], _ => []
  | e :: rest, s => if e.1 = s then delKey rest s else e :: delKey rest s

/-- A position is well formed when, as in a Python dict, no square is bound twice. -/
def nodupKeys (b : Board) : Prop :=
  (b.map Prod.fst).Nodup

/-- A position is on-board when every occupied square is a real board square,
as the spec's data model requires of a Position. -/
def keysOnBoard (b : Board) : Prop :=
  ∀ e ∈ b, onBoard e.1 = true

instance (b : Board) : Decidable (nodupKeys b) := by
  unfold nodupKeys
  infer_instance

instance (b : Board) : Decidable (keysOnBoard b) := by
  unfold keysOnBoard
  infer_instance

/-- Opposing side, as computed at the several normalization sites in the source. -/
def enemyOf : PColor → PColor
  | PColor.w => PColor.b
  | PColor.b => PColor.w

/-- The knight_moves / knight_offsets table, in source order. -/
def knightOffsets : List Square :=
  [(2, 1), (2, -1), (-2, 1), (-2, -1), (1, 2), (1, -2), (-1, 2), (-1, -2)]

/-- The nested dc/dr loops over [-1,0,1] x [-1,0,1] skipping (0,0), in the
order Python iterates them. -/
def kingOffsets : List Square :=
  [(-1, -1), (-1, 0), (-1, 1), (0, -1), (0, 1), (1, -1), (1, 0), (1, 1)]

/-- Add an offset to a square. -/
def shiftSq (s d : Square) : Square :=
  (s.1 + d.1, s.2 + d.2)

/-- The body of ChessRules.check_sliding_attack / ChessBot.check_sliding_attack
(identical in the two source files): the `for i in range(1, 8)` scan, stepping
one square at a time, breaking off-board or at the first occupied square. -/
def check_sliding_attack_go (b : Board) (byc : PColor) (types : List PType) (d : Square) :
    Square → Nat → Bool
  | _, 0 => false
  | cur, Nat.succ fuel =>
    let t := shiftSq cur d
    if onBoard t then
      match lookup b t with
      | some pc => decide (pc.color = byc ∧ pc.ptype ∈ types)
      | none => check_sliding_attack_go b byc types d t fuel
    else false

/-- ChessRules.check_sliding_attack and ChessBot.check_sliding_attack, which
are identical in the source: scan up to 7 steps from the square in direction
d for an attacker of one of the given piece types. -/
def check_sliding_attack (b : Board) (sq d : Square) (byc : PColor) (types : List PType) : Bool :=
  check_sliding_attack_go b byc types d sq 7

/-- ChessRules.is_square_under_attack and ChessBot.is_square_under_attack,
which have identical logic in the source (pawn, knight, king, straight
sliders, diagonal sliders, in that order, each offset clipped to the board). -/
def is_square_under_attack (b : Board) (sq : Square) (byc : PColor) : Bool :=
  let pawnFromDir : Int := if byc = PColor.w then -1 else 1
  let pawnHit := [(-1 : Int), 1].any (fun dc =>
    let a : Square := (sq.1 + dc, sq.2 + pawnFromDir)
    onBoard a && decide (lookup b a = some ⟨byc, PType.p⟩))
  let knightHit := knightOffsets.any (fun d =>
    let a := shiftSq sq d
    onBoard a && decide (lookup b a = some ⟨byc, PType.n⟩))
  let kingHit := kingOffsets.any (fun d =>
    let a := shiftSq sq d
    onBoard a && decide (lookup b a = some ⟨byc, PType.k⟩))
  let straightHit := [((0 : Int), (1 : Int)), (0, -1), (1, 0), (-1, 0)].any (fun d =>
    check_sliding_attack b sq d byc [PType.r, PType.q])
  let diagHit := [((1 : Int), (1 : Int)), (1, -1), (-1, 1), (-1, -1)].any (fun d =>
    check_sliding_attack b sq d byc [PType.b, PType.q])
  pawnHit || knightHit || kingHit || straightHit || diagHit

/-- The king search loop shared by is_move_legal_king_safety, is_in_check and
is_move_safe_for_king: first binding, in dict order, whose value is the
two-character code of the given color's king. -/
def findKing : Board → PColor → Option Square
  | [], _ => none
  | e :: rest, c => if e.2 = (⟨c, PType.k⟩ : Piece) then some e.1 else findKing rest c

/-- The move simulation prologue shared by ChessRules.is_move_legal_king_safety
and ChessBot.is_move_safe_for_king: test_board = dict(board_state);
test_board[to] = piece; del test_board[from].  The source indexes
board_state[from] directly (KeyError on a vacant source, which no caller
reaches); the vacant case here leaves the board unchanged. -/
def simMove (b : Board) (f t : Square) : Board :=
  match lookup b f with
  | some pc => delKey (setKey b t pc) f
  | none => b

/-- ChessRules.is_move_legal_king_safety and ChessBot.is_move_safe_for_king,
which have identical logic in the source: simulate the move on a copy of the
dict, find the mover's king, and require it not to be under attack; a missing
king yields False. -/
def is_move_legal_king_safety (b : Board) (f t : Square) (c : PColor) : Bool :=
  let test := simMove b f t
  match findKing test c with
  | none => false
  | some kp => !(is_square_under_attack test kp (enemyOf c))

/-- ChessBot.is_move_safe_for_king: same logic as
ChessRules.is_move_legal_king_safety, see above. -/
def is_move_safe_for_king : Board → Square → Square → PColor → Bool :=
  is_move_legal_king_safety

/-- Pawn advance direction: 1 for white, -1 for black. -/
def pawnDir (c : PColor) : Int :=
  if c = PColor.w then 1 else -1

/-- Pawn double-step start row: 2 for white, 7 for black. -/
def startRow (c : PColor) : Int :=
  if c = PColor.w then 2 else 7

/-- ChessRules.is_valid_pawn_move. -/
def is_valid_pawn_move (b : Board) (f t : Square) (c : PColor) : Bool :=
  if f.1 = t.1 then
    if t.2 = f.2 + pawnDir c then decide (lookup b t = none)
    else if f.2 = startRow c ∧ t.2 = f.2 + 2 * pawnDir c then
      decide (lookup b t = none ∧ lookup b (f.1, f.2 + pawnDir c) = none)
    else false
  else if (t.1 - f.1).natAbs = 1 ∧ t.2 = f.2 + pawnDir c then
    match lookup b t with
    | some pc => decide (pc.color ≠ c)
    | none => false
  else false

/-- ChessRules.is_valid_knight_move: the L-shape test on coordinate
differences, with no bounds check on the destination. -/
def is_valid_knight_move (b : Board) (f t : Square) (c : PColor) : Bool :=
  decide (((t.1 - f.1).natAbs = 2 ∧ (t.2 - f.2).natAbs = 1) ∨
          ((t.1 - f.1).natAbs = 1 ∧ (t.2 - f.2).natAbs = 2))

/-- The squares visited by the source's straight/diagonal path loops: the i-th
element is the square i+1 steps from s in direction d, for i < n. -/
def pathSquares (s d : Square) (n : Nat) : List Square :=
  (List.range n).map (fun (i : Nat) =>
    ((s.1 + d.1 * ((i : Int) + 1), s.2 + d.2 * ((i : Int) + 1)) : Square))

/-- ChessRules.is_straight_clear: same row or column and the strictly-between
squares are all vacant (no bounds check on the destination). -/
def is_straight_clear (b : Board) (f t : Square) : Bool :=
  if f.1 ≠ t.1 ∧ f.2 ≠ t.2 then false
  else if f.1 = t.1 then
    let step : Int := if t.2 > f.2 then 1 else -1
    (pathSquares f (0, step) ((t.2 - f.2).natAbs - 1)).all (fun s => decide (lookup b s = none))
  else
    let step : Int := if t.1 > f.1 then 1 else -1
    (pathSquares f (step, 0) ((t.1 - f.1).natAbs - 1)).all (fun s => decide (lookup b s = none))

/-- ChessRules.is_diagonal_clear. -/
def is_diagonal_clear (b : Board) (f t : Square) : Bool :=
  let dc := t.1 - f.1
  let dr := t.2 - f.2
  if dc.natAbs ≠ dr.natAbs then false
  else
    let colStep : Int := if dc > 0 then 1 else -1
    let rowStep : Int := if dr > 0 then 1 else -1
    (pathSquares f (colStep, rowStep) (dc.natAbs - 1)).all (fun s => decide (lookup b s = none))

/-- ChessRules.is_valid_bishop_move. -/
def is_valid_bishop_move (b : Board) (f t : Square) (c : PColor) : Bool :=
  is_diagonal_clear b f t

/-- ChessRules.is_valid_rook_move. -/
def is_valid_rook_move (b : Board) (f t : Square) (c : PColor) : Bool :=
  is_straight_clear b f t

/-- ChessRules.is_valid_queen_move. -/
def is_valid_queen_move (b : Board) (f t : Square) (c : PColor) : Bool :=
  is_straight_clear b f t || is_diagonal_clear b f t

/-- The destination-adjacent-to-enemy-king scan of ChessRules.is_valid_king_move
and ChessBot.is_adjacent_to_enemy_king, which have identical logic: some
on-board neighbor of the destination holds the enemy king. -/
def is_adjacent_to_enemy_king (b : Board) (t : Square) (c : PColor) : Bool :=
  kingOffsets.any (fun d =>
    let a := shiftSq t d
    onBoard a && decide (lookup b a = some ⟨enemyOf c, PType.k⟩))

/-- ChessRules.is_valid_king_move: one step in any direction, refused when the
destination is adjacent to the enemy king (castling unimplemented). -/
def is_valid_king_move (b : Board) (f t : Square) (c : PColor) : Bool :=
  if (t.1 - f.1).natAbs ≤ 1 ∧ (t.2 - f.2).natAbs ≤ 1 then
    !(is_adjacent_to_enemy_king b t c)
  else false

/-- ChessRules.is_pseudo_legal_move: dispatch on the piece-type character. -/
def is_pseudo_legal_move (b : Board) (f t : Square) (pc : Piece) : Bool :=
  match pc.ptype with
  | PType.p => is_valid_pawn_move b f t pc.color
  | PType.n => is_valid_knight_move b f t pc.color
  | PType.b => is_valid_bishop_move b f t pc.color
  | PType.r => is_valid_rook_move b f t pc.color
  | PType.q => is_valid_queen_move b f t pc.color
  | PType.k => is_valid_king_move b f t pc.color

/-- Rejection message of check 1 of ChessRules.is_valid_move. -/
def msgNoPiece : String := "No piece at starting position"

/-- Rejection message of check 2 of ChessRules.is_valid_move. -/
def msgNotYours : String := "Not your piece"

/-- Rejection message of check 3 of ChessRules.is_valid_move. -/
def msgNullMove : String := "Must move to different square"

/-- Rejection message of check 4 of ChessRules.is_valid_move. -/
def msgOwnCapture : String := "Cannot capture your own piece"

/-- Rejection message of check 5 of ChessRules.is_valid_move. -/
def msgIllegal : String := "Illegal move for this piece"

/-- Rejection message of check 6 of ChessRules.is_valid_move. -/
def msgUnsafe : String := "Move leaves king in check"

/-- Acceptance message of ChessRules.is_valid_move. -/
def msgValid : String := "Valid move"

/-- Check 4 of ChessRules.is_valid_move: the destination holds a piece of the
mover's color. -/
def ownAt (b : Board) (t : Square) (c : PColor) : Bool :=
  match lookup b t with
  | some q => decide (q.color = c)
  | none => false

/-- ChessRules.is_valid_move: the six checks in source order, returning the
(is_valid, error_message) pair.  The turn argument is the normalized side
to move (the source accepts both the word and one-letter spellings and
normalizes them to the same two values). -/
def is_valid_move (b : Board) (f t : Square) (turn : PColor) : Bool × String :=
  match lookup b f with
  | none => (false, msgNoPiece)
  | some piece =>
    if piece.color ≠ turn then (false, msgNotYours)
    else if t = f then (false, msgNullMove)
    else if ownAt b t piece.color then (false, msgOwnCapture)
    else if !(is_pseudo_legal_move b f t piece) then (false, msgIllegal)
    else if !(is_move_legal_king_safety b f t piece.color) then (false, msgUnsafe)
    else (true, msgValid)

/-- ChessRules.is_in_check: a missing king counts as not in check. -/
def is_in_check (b : Board) (c : PColor) : Bool :=
  match findKing b c with
  | none => false
  | some kp => is_square_under_attack b kp (enemyOf c)

/-- The 64 destination squares tried by ChessRules.has_legal_moves, files
outermost, exactly as the source's nested loops produce them. -/
def allSquaresList : List Square :=
  (List.range 8).flatMap (fun (ci : Nat) =>
    (List.range 8).map (fun (ri : Nat) => ((((ci : Int) + 1, (ri : Int) + 1)) : Square)))

/-- ChessRules.has_legal_moves: some piece of the color has some destination
(other than its own square) accepted by is_valid_move. -/
def has_legal_moves (b : Board) (c : PColor) : Bool :=
  b.any (fun e =>
    decide (e.2.color = c) && allSquaresList.any (fun t =>
      decide (t ≠ e.1) && (is_valid_move b e.1 t c).1))

/-- ChessRules.is_insufficient_material: two pieces left, or three pieces
left at least one of which is a knight or bishop. -/
def is_insufficient_material (b : Board) : Bool :=
  let pieces := b.map (fun e => e.2)
  if pieces.length = 2 then true
  else if pieces.length = 3 then
    (pieces.map (fun pc => pc.ptype)).any (fun ty => decide (ty = PType.n)) ||
    (pieces.map (fun pc => pc.ptype)).any (fun ty => decide (ty = PType.b))
  else false

/-- The color words used by check_game_status for the winner field. -/
def colorName : PColor → String
  | PColor.w => "white"
  | PColor.b => "black"

/-- Terminal reason of the checkmate branch of check_game_status. -/
def msgCheckmate : String := "Checkmate"

/-- Terminal reason of the stalemate branch of check_game_status. -/
def msgStalemate : String := "Stalemate - No legal moves"

/-- Terminal reason of the insufficient-material branch of check_game_status. -/
def msgDrawMaterial : String := "Draw - Insufficient material"

/-- Reason of the check branch of check_game_status. -/
def msgCheck : String := "Check"

/-- ChessRules.check_game_status: the (status, winner, reason) triple.  The
winner computation 'black' if current_turn == 'white' else 'white' is the
opposing side for the two normalized turn values this embedding covers. -/
def check_game_status (b : Board) (turn : PColor) : String × Option String × Option String :=
  let in_check := is_in_check b turn
  let has_moves := has_legal_moves b turn
  if !has_moves then
    if in_check then ("checkmate", some (colorName (enemyOf turn)), some msgCheckmate)
    else ("stalemate", none, some msgStalemate)
  else if is_insufficient_material b then ("draw", none, some msgDrawMaterial)
  else if in_check then ("check", none, some msgCheck)
  else ("playing", none, none)

/-- ChessBot.get_pawn_moves: bounded forward step, double step from the start
row nested under a vacant forward square, then the two bounded diagonal
captures, in source order. -/
def get_pawn_moves (pos : Square) (c : PColor) (b : Board) : List Square :=
  let dir := pawnDir c
  let fwd : Square := (pos.1, pos.2 + dir)
  let fwdPart : List Square :=
    if decide (1 ≤ fwd.2 ∧ fwd.2 ≤ 8) then
      if lookup b fwd = none then
        fwd :: (if pos.2 = startRow c then
                  (if lookup b (pos.1, pos.2 + 2 * dir) = none ∧ lookup b fwd = none then
                     [(pos.1, pos.2 + 2 * dir)]
                   else [])
                else [])
      else []
    else []
  let caps : List Square := [(-1 : Int), 1].filterMap (fun dc =>
    let cap : Square := (pos.1 + dc, pos.2 + dir)
    if onBoard cap then
      match lookup b cap with
      | some pc => if pc.color ≠ c then some cap else none
      | none => none
    else none)
  fwdPart ++ caps

/-- ChessBot.get_knight_moves: the eight offsets, clipped to the board,
landing on a vacant or enemy square. -/
def get_knight_moves (pos : Square) (c : PColor) (b : Board) : List Square :=
  knightOffsets.filterMap (fun d =>
    let t := shiftSq pos d
    if onBoard t then
      match lookup b t with
      | some pc => if pc.color ≠ c then some t else none
      | none => some t
    else none)

/-- The body of ChessBot.get_sliding_moves: the `for i in range(1, 8)` walk,
stepping one square at a time, collecting vacant squares, ending with an
enemy-held square (capture) or at a friendly piece or the board edge. -/
def get_sliding_moves_go (b : Board) (c : PColor) (d : Square) : Square → Nat → List Square
  | _, 0 => []
  | cur, Nat.succ fuel =>
    let t := shiftSq cur d
    if onBoard t then
      match lookup b t with
      | some pc => if pc.color ≠ c then [t] else []
      | none => t :: get_sliding_moves_go b c d t fuel
    else []

/-- ChessBot.get_sliding_moves. -/
def get_sliding_moves (pos d : Square) (c : PColor) (b : Board) : List Square :=
  get_sliding_moves_go b c d pos 7

/-- ChessBot.get_bishop_moves, direction order as in the source. -/
def get_bishop_moves (pos : Square) (c : PColor) (b : Board) : List Square :=
  [((1 : Int), (1 : Int)), (1, -1), (-1, 1), (-1, -1)].flatMap
    (fun d => get_sliding_moves pos d c b)

/-- ChessBot.get_rook_moves, direction order as in the source. -/
def get_rook_moves (pos : Square) (c : PColor) (b : Board) : List Square :=
  [((0 : Int), (1 : Int)), (0, -1), (1, 0), (-1, 0)].flatMap
    (fun d => get_sliding_moves pos d c b)

/-- ChessBot.get_queen_moves, direction order as in the source. -/
def get_queen_moves (pos : Square) (c : PColor) (b : Board) : List Square :=
  [((0 : Int), (1 : Int)), (0, -1), (1, 0), (-1, 0), (1, 1), (1, -1), (-1, 1), (-1, -1)].flatMap
    (fun d => get_sliding_moves pos d c b)

/-- ChessBot.get_king_moves: the eight neighbors, clipped to the board, vacant
or enemy-held, and not adjacent to the enemy king. -/
def get_king_moves (pos : Square) (c : PColor) (b : Board) : List Square :=
  kingOffsets.filterMap (fun d =>
    let t := shiftSq pos d
    if onBoard t then
      if (match lookup b t with
          | some pc => decide (pc.color ≠ c)
          | none => true) then
        if !(is_adjacent_to_enemy_king b t c) then some t else none
      else none
    else none)

/-- ChessBot.get_piece_pseudo_moves: dispatch on the piece-type character. -/
def get_piece_pseudo_moves (pos : Square) (pc : Piece) (b : Board) : List Square :=
  match pc.ptype with
  | PType.p => get_pawn_moves pos pc.color b
  | PType.n => get_knight_moves pos pc.color b
  | PType.b => get_bishop_moves pos pc.color b
  | PType.r => get_rook_moves pos pc.color b
  | PType.q => get_queen_moves pos pc.color b
  | PType.k => get_king_moves pos pc.color b

/-- ChessBot.get_all_legal_moves: every piece of the color, its pseudo-moves
filtered through the king-safety simulation, in board order. -/
def get_all_legal_moves (b : Board) (c : PColor) : List Move :=
  b.flatMap (fun e =>
    if e.2.color = c then
      ((get_piece_pseudo_moves e.1 e.2 b).filter
        (fun t => is_move_safe_for_king b e.1 t c)).map (fun t => (e.1, t))
    else [])

/-- ChessBot.is_move_safe_position: after simulating the move, the destination
square is not attacked by the opponent. -/
def is_move_safe_position (b : Board) (f t : Square) (c : PColor) : Bool :=
  let test := simMove b f t
  !(is_square_under_attack test t (enemyOf c))

/-- The categorization test `board_state[from_pos][1] == 'k'` of
ChessBot.select_check_escape_move.  The source indexes the dict directly;
a vacant source square (unreachable from make_move) counts as non-king. -/
def moveIsKingMove (b : Board) (m : Move) : Bool :=
  match lookup b m.1 with
  | some pc => decide (pc.ptype = PType.k)
  | none => false

/-- ChessBot.select_check_escape_move up to the final random.choice: the list
the choice is drawn from.  Buckets in source order: non-king captures, then
non-king non-captures (blocks), then king moves, falling back to the whole
legal list. -/
def select_check_escape_pool (b : Board) (legal : List Move) (c : PColor) : List Move :=
  let capture_moves := legal.filter (fun m => !(moveIsKingMove b m) && (lookup b m.2).isSome)
  let block_moves := legal.filter (fun m => !(moveIsKingMove b m) && (lookup b m.2).isNone)
  let king_moves := legal.filter (fun m => moveIsKingMove b m)
  if capture_moves ≠ [] then capture_moves
  else if block_moves ≠ [] then block_moves
  else if king_moves ≠ [] then king_moves
  else legal

/-- ChessBot.select_strategic_move up to the final random.choice: the list the
choice is drawn from, buckets in source priority order. -/
def select_strategic_pool (b : Board) (legal : List Move) (c : PColor) : List Move :=
  let safe_captures := legal.filter (fun m =>
    (lookup b m.2).isSome && is_move_safe_position b m.1 m.2 c)
  let safe_moves := legal.filter (fun m =>
    (lookup b m.2).isNone && is_move_safe_position b m.1 m.2 c)
  let risky_captures := legal.filter (fun m =>
    (lookup b m.2).isSome && !(is_move_safe_position b m.1 m.2 c))
  let risky_moves := legal.filter (fun m =>
    (lookup b m.2).isNone && !(is_move_safe_position b m.1 m.2 c))
  if safe_captures ≠ [] then safe_captures
  else if safe_moves ≠ [] then safe_moves
  else if risky_captures ≠ [] then risky_captures
  else if risky_moves ≠ [] then risky_moves
  else legal

/-- ChessBot.make_move up to the final random.choice: the list of moves the
bot may return; the empty list models returning None. -/
def make_move_pool (b : Board) (c : PColor) : List Move :=
  let legal_moves := get_all_legal_moves b c
  if legal_moves = [] then []
  else if is_in_check b c then select_check_escape_pool b legal_moves c
  else select_strategic_pool b legal_moves c

/-- ChessGame.initialize_board from src/games/models.py, in the dict-literal
order of the source. -/
def initialize_board : Board :=
  [((1, 8), ⟨PColor.b, PType.r⟩), ((2, 8), ⟨PColor.b, PType.n⟩),
   ((3, 8), ⟨PColor.b, PType.b⟩), ((4, 8), ⟨PColor.b, PType.q⟩),
   ((5, 8), ⟨PColor.b, PType.k⟩), ((6, 8), ⟨PColor.b, PType.b⟩),
   ((7, 8), ⟨PColor.b, PType.n⟩), ((8, 8), ⟨PColor.b, PType.r⟩),
   ((1, 7), ⟨PColor.b, PType.p⟩), ((2, 7), ⟨PColor.b, PType.p⟩),
   ((3, 7), ⟨PColor.b, PType.p⟩), ((4, 7), ⟨PColor.b, PType.p⟩),
   ((5, 7), ⟨PColor.b, PType.p⟩), ((6, 7), ⟨PColor.b, PType.p⟩),
   ((7, 7), ⟨PColor.b, PType.p⟩), ((8, 7), ⟨PColor.b, PType.p⟩),
   ((1, 2), ⟨PColor.w, PType.p⟩), ((2, 2), ⟨PColor.w, PType.p⟩),
   ((3, 2), ⟨PColor.w, PType.p⟩), ((4, 2), ⟨PColor.w, PType.p⟩),
   ((5, 2), ⟨PColor.w, PType.p⟩), ((6, 2), ⟨PColor.w, PType.p⟩),
   ((7, 2), ⟨PColor.w, PType.p⟩), ((8, 2), ⟨PColor.w, PType.p⟩),
   ((1, 1), ⟨PColor.w, PType.r⟩), ((2, 1), ⟨PColor.w, PType.n⟩),
   ((3, 1), ⟨PColor.w, PType.b⟩), ((4, 1), ⟨PColor.w, PType.q⟩),
   ((5, 1), ⟨PColor.w, PType.k⟩), ((6, 1), ⟨PColor.w, PType.b⟩),
   ((7, 1), ⟨PColor.w, PType.n⟩), ((8, 1), ⟨PColor.w, PType.r⟩)]

/-- State-passing rendering of ChessRules.is_move_legal_king_safety: the
simulation assignments hit the fresh copy test_board = dict(board_state),
so the function returns its verdict together with the caller's board as it
stands when the call returns. -/
def is_move_legal_king_safety_st (b : Board) (f t : Square) (c : PColor) : Bool × Board :=
  let test := simMove b f t
  let verdict :=
    match findKing test c with
    | none => false
    | some kp => !(is_square_under_attack test kp (enemyOf c))
  (verdict, b)

/-- State-passing rendering of ChessRules.is_valid_move, threading the
caller's board through every check, including the simulating sixth one. -/
def is_valid_move_st (b : Board) (f t : Square) (turn : PColor) : (Bool × String) × Board :=
  match lookup b f with
  | none => ((false, msgNoPiece), b)
  | some piece =>
    if piece.color ≠ turn then ((false, msgNotYours), b)
    else if t = f then ((false, msgNullMove), b)
    else if ownAt b t piece.color then ((false, msgOwnCapture), b)
    else if !(is_pseudo_legal_move b f t piece) then ((false, msgIllegal), b)
    else
      let safety := is_move_legal_king_safety_st b f t piece.color
      if !safety.1 then ((false, msgUnsafe), safety.2)
      else ((true, msgValid), safety.2)


/-- The square j steps from s in direction d: step j of the source's sliding
loops and of the straight/diagonal path scans. -/
def rayPoint (s d : Square) (j : Nat) : Square :=
  (s.1 + d.1 * (j : Int), s.2 + d.2 * (j : Int))

/-- Chebyshev adjacency of two distinct squares, the sense in which the spec
says a destination is adjacent to the opposing king. -/
def adjSq (a c : Square) : Prop :=
  (a.1 - c.1).natAbs ≤ 1 ∧ (a.2 - c.2).natAbs ≤ 1 ∧ a ≠ c

instance (a c : Square) : Decidable (adjSq a c) := by
  unfold adjSq
  infer_instance

/-- The 20 opening moves for white, in the order the bot's enumeration emits
them: per pawn the single then the double advance, then the two knights. -/
def openingMovesWhite : List Move :=
  [((1, 2), (1, 3)), ((1, 2), (1, 4)), ((2, 2), (2, 3)), ((2, 2), (2, 4)),
   ((3, 2), (3, 3)), ((3, 2), (3, 4)), ((4, 2), (4, 3)), ((4, 2), (4, 4)),
   ((5, 2), (5, 3)), ((5, 2), (5, 4)), ((6, 2), (6, 3)), ((6, 2), (6, 4)),
   ((7, 2), (7, 3)), ((7, 2), (7, 4)), ((8, 2), (8, 3)), ((8, 2), (8, 4)),
   ((2, 1), (3, 3)), ((2, 1), (1, 3)), ((7, 1), (8, 3)), ((7, 1), (6, 3))]

/-- White king e1, white pawn d2, black king c3: the white pawn's square d2 is
adjacent to the black king. -/
def kingSelfCaptureBoard : Board :=
  [((5, 1), ⟨PColor.w, PType.k⟩), ((4, 2), ⟨PColor.w, PType.p⟩),
   ((3, 3), ⟨PColor.b, PType.k⟩)]

/-- White king e1 in check from the black rook e2 (black king a8): the only
capture of the checking piece is by the white king. -/
def kingOnlyCaptureBoard : Board :=
  [((5, 1), ⟨PColor.w, PType.k⟩), ((5, 2), ⟨PColor.b, PType.r⟩),
   ((1, 8), ⟨PColor.b, PType.k⟩)]

/-- A position with a lone white pawn on a2 and no white king at all. -/
def noKingBoard : Board :=
  [((1, 2), ⟨PColor.w, PType.p⟩)]

/-- White king e1, white rook e3 pinned by the black rook e8 (black king a8). -/
def pinnedRookBoard : Board :=
  [((5, 1), ⟨PColor.w, PType.k⟩), ((5, 3), ⟨PColor.w, PType.r⟩),
   ((5, 8), ⟨PColor.b, PType.r⟩), ((1, 8), ⟨PColor.b, PType.k⟩)]

/-- White rook h4 with an open fourth rank, kings on e1 and e8. -/
def openRookBoard : Board :=
  [((8, 4), ⟨PColor.w, PType.r⟩), ((5, 1), ⟨PColor.w, PType.k⟩),
   ((5, 8), ⟨PColor.b, PType.k⟩)]

/-- White king a1 in check from the black rook a3; the white rook e3 can
capture the checker along the third rank (black king h8). -/
def checkCaptureBoard : Board :=
  [((1, 1), ⟨PColor.w, PType.k⟩), ((1, 3), ⟨PColor.b, PType.r⟩),
   ((5, 3), ⟨PColor.w, PType.r⟩), ((8, 8), ⟨PColor.b, PType.k⟩)]

theorem lookup_eq_some_mem {b : Board} {s : Square} {pc : Piece}
    (h : lookup b s = some pc) : (s, pc) ∈ b := by
  induction b with
  | nil => simp [lookup] at h
  | cons e rest ih =>
    rw [lookup] at h
    by_cases he : e.1 = s
    · simp [he] at h
      exact List.mem_cons.mpr (Or.inl (by cases e; simp_all))
    · simp [he] at h
      exact List.mem_cons_of_mem _ (ih h)

theorem lookup_of_mem_nodup {b : Board} (hn : nodupKeys b) {s : Square} {pc : Piece}
    (h : (s, pc) ∈ b) : lookup b s = some pc := by
  induction b with
  | nil => simp at h
  | cons e rest ih =>
    rcases List.mem_cons.mp h with h1 | h1
    · rw [lookup, if_pos (by rw [← h1])]
      rw [← h1]
    · have he : e.1 ≠ s := by
        intro hc
        have hmem : s ∈ rest.map Prod.fst := List.mem_map_of_mem Prod.fst h1
        have hnod := (List.nodup_cons.mp hn).1
        rw [hc] at hnod
        exact hnod hmem
      rw [lookup, if_neg he]
      exact ih (List.nodup_cons.mp hn).2 h1

theorem lookup_eq_none_iff {b : Board} {s : Square} :
    lookup b s = none ↔ ∀ pc : Piece, (s, pc) ∉ b := by
  induction b with
  | nil => simp [lookup]
  | cons e rest ih =>
    by_cases he : e.1 = s
    · constructor
      · intro h
        rw [lookup, if_pos he] at h
        cases h
      · intro h
        exact absurd (by cases e; simp_all : (s, e.2) ∈ e :: rest) (h e.2)
    · rw [lookup, if_neg he, ih]
      constructor
      · intro h pc
        intro hmem
        rcases List.mem_cons.mp hmem with h1 | h1
        · rw [← h1] at he
          exact he rfl
        · exact h pc h1
      · intro h pc hmem
        exact h pc (List.mem_cons_of_mem _ hmem)

theorem lookup_setKey (b : Board) (t : Square) (pc : Piece) (s : Square) :
    lookup (setKey b t pc) s = if s = t then some pc else lookup b s := by
  induction b with
  | nil =>
    rw [setKey]
    by_cases h : s = t
    · simp [lookup, h]
    · have h1 : ¬ (((t, pc) : Square × Piece).1 = s) := by
        simp
        intro hc
        exact h hc.symm
      simp [lookup, h1, h]
  | cons e rest ih =>
    rw [setKey]
    by_cases he : e.1 = t
    · rw [if_pos he]
      by_cases hst : s = t
      · simp [lookup, hst]
      · have h1 : ¬ (((t, pc) : Square × Piece).1 = s) := by
          simp
          intro hc
          exact hst hc.symm
        have h2 : ¬ (e.1 = s) := by
          rw [he]
          intro hc
          exact hst hc.symm
        simp [lookup, h1, h2, hst]
    · rw [if_neg he]
      by_cases hst : s = t
      · have h2 : ¬ (e.1 = s) := by
          rw [hst]
          exact he
        subst hst
        simp [lookup, h2, he, ih]
      · by_cases hes : e.1 = s
        · simp [lookup, hes, hst]
        · simp [lookup, hes, ih, hst]

theorem lookup_delKey (b : Board) (f s : Square) :
    lookup (delKey b f) s = if s = f then none else lookup b s := by
  induction b with
  | nil =>
    rw [delKey]
    by_cases h : s = f <;> simp [lookup, h]
  | cons e rest ih =>
    rw [delKey]
    by_cases he : e.1 = f
    · rw [if_pos he, ih]
      by_cases hst : s = f
      · simp [hst]
      · have h2 : ¬ (e.1 = s) := by
          rw [he]
          intro hc
          exact hst hc.symm
        simp [lookup, h2, hst]
    · rw [if_neg he]
      by_cases hst : s = f
      · have h2 : ¬ (e.1 = s) := by
          intro hc
          rw [hc] at he
          exact he hst
        subst hst
        simp [lookup, h2, he, ih]
      · by_cases hes : e.1 = s
        · simp [lookup, hes, hst]
        · simp [lookup, hes, ih, hst]

theorem mem_delKey {b : Board} {f : Square} {x : Square × Piece} :
    x ∈ delKey b f ↔ x ∈ b ∧ x.1 ≠ f := by
  induction b with
  | nil => simp [delKey]
  | cons e rest ih =>
    rw [delKey]
    by_cases he : e.1 = f
    · rw [if_pos he, ih]
      constructor
      · rintro ⟨hx, hne⟩
        exact ⟨List.mem_cons_of_mem _ hx, hne⟩
      · rintro ⟨hx, hne⟩
        rcases List.mem_cons.mp hx with h | h
        · exfalso
          rw [h] at hne
          exact hne he
        · exact ⟨h, hne⟩
    · rw [if_neg he]
      constructor
      · intro hx
        rcases List.mem_cons.mp hx with h | h
        · rw [h]
          exact ⟨List.mem_cons_self _ _, he⟩
        · rcases ih.mp h with ⟨h1, h2⟩
          exact ⟨List.mem_cons_of_mem _ h1, h2⟩
      · rintro ⟨hx, hne⟩
        rcases List.mem_cons.mp hx with h | h
        · rw [h]
          exact List.mem_cons_self _ _
        · exact List.mem_cons_of_mem _ (ih.mpr ⟨h, hne⟩)

theorem mem_setKey_elim {b : Board} {t : Square} {pc : Piece} {x : Square × Piece}
    (h : x ∈ setKey b t pc) : x = (t, pc) ∨ x ∈ b := by
  induction b with
  | nil =>
    rw [setKey] at h
    simp at h
    exact Or.inl h
  | cons e rest ih =>
    rw [setKey] at h
    by_cases he : e.1 = t
    · rw [if_pos he] at h
      rcases List.mem_cons.mp h with h1 | h1
      · exact Or.inl h1
      · exact Or.inr (List.mem_cons_of_mem _ h1)
    · rw [if_neg he] at h
      rcases List.mem_cons.mp h with h1 | h1
      · exact Or.inr (List.mem_cons.mpr (Or.inl h1))
      · rcases ih h1 with h2 | h2
        · exact Or.inl h2
        · exact Or.inr (List.mem_cons_of_mem _ h2)

theorem self_mem_setKey (b : Board) (t : Square) (pc : Piece) :
    (t, pc) ∈ setKey b t pc := by
  induction b with
  | nil =>
    rw [setKey]
    exact List.mem_cons_self _ _
  | cons e rest ih =>
    rw [setKey]
    by_cases he : e.1 = t
    · rw [if_pos he]
      exact List.mem_cons_self _ _
    · rw [if_neg he]
      exact List.mem_cons_of_mem _ ih

theorem mem_setKey_of_ne {b : Board} {t : Square} {pc : Piece} {x : Square × Piece}
    (hx : x ∈ b) (hne : x.1 ≠ t) : x ∈ setKey b t pc := by
  induction b with
  | nil => simp at hx
  | cons e rest ih =>
    rw [setKey]
    by_cases he : e.1 = t
    · rw [if_pos he]
      rcases List.mem_cons.mp hx with h | h
      · exfalso
        rw [h] at hne
        exact hne he
      · exact List.mem_cons_of_mem _ h
    · rw [if_neg he]
      rcases List.mem_cons.mp hx with h | h
      · rw [h]
        exact List.mem_cons_self _ _
      · exact List.mem_cons_of_mem _ (ih h)

theorem findKing_eq_none_iff {b : Board} {c : PColor} :
    findKing b c = none ↔ ∀ e ∈ b, e.2 ≠ (⟨c, PType.k⟩ : Piece) := by
  induction b with
  | nil => simp [findKing]
  | cons e rest ih =>
    rw [findKing]
    by_cases he : e.2 = (⟨c, PType.k⟩ : Piece)
    · rw [if_pos he]
      constructor
      · intro h
        exact absurd h (by simp)
      · intro h
        exact absurd he (h e (List.mem_cons_self _ _))
    · rw [if_neg he, ih]
      constructor
      · intro h x hx
        rcases List.mem_cons.mp hx with h1 | h1
        · rw [h1]
          exact he
        · exact h x h1
      · intro h x hx
        exact h x (List.mem_cons_of_mem _ hx)

theorem findKing_eq_some_of {b : Board} {c : PColor} {s : Square}
    (hl : lookup b s = some ⟨c, PType.k⟩)
    (huniq : ∀ e ∈ b, e.2 = (⟨c, PType.k⟩ : Piece) → e.1 = s) :
    findKing b c = some s := by
  induction b with
  | nil => simp [lookup] at hl
  | cons e rest ih =>
    rw [findKing]
    by_cases he : e.2 = (⟨c, PType.k⟩ : Piece)
    · rw [if_pos he]
      rw [huniq e (List.mem_cons_self _ _) he]
    · rw [if_neg he]
      have hes : e.1 ≠ s := by
        intro hc
        rw [lookup, if_pos hc] at hl
        exact he (by cases e; simp_all)
      rw [lookup, if_neg hes] at hl
      exact ih hl (fun x hx hk => huniq x (List.mem_cons_of_mem _ hx) hk)

/-- C10: validation does not require the destination square to lie on the 8x8
board: in the initial position the knight on g1 is allowed to move to the
off-board square i2, and a rook with an open rank may slide past file h to i4,
because knight geometry and the path scans never bounds-check the destination. -/
theorem c10_offboard_destination_accepted :
    onBoard (9, 2) = false ∧
    is_valid_move initialize_board (7, 1) (9, 2) PColor.w = (true, msgValid) ∧
    onBoard (9, 4) = false ∧
    is_valid_move openRookBoard (8, 4) (9, 4) PColor.w = (true, msgValid) := by
  exact ⟨by decide, by decide, by decide, by decide⟩

/-- C5: on the standard initial layout the bot's legal-move enumeration for
white returns exactly 20 moves: the 8 single pawn advances, the 8 double pawn
advances, and the 4 knight moves. -/
theorem c5_opening_moves_white :
    get_all_legal_moves initialize_board PColor.w = openingMovesWhite ∧
    (get_all_legal_moves initialize_board PColor.w).length = 20 := by
  exact ⟨by decide, by decide⟩

/-- C9: validation never mutates the position passed to it: in the
state-passing rendering of is_valid_move (where the sixth check's simulation
writes to the copy test_board = dict(board_state)), the board handed back is
deep-equal to the board handed in, on every branch including each rejection
branch, and the verdict agrees with the pure rendering. -/
theorem c9_validate_preserves_position (b : Board) (f t : Square) (turn : PColor) :
    (is_valid_move_st b f t turn).2 = b ∧
    (is_valid_move_st b f t turn).1 = is_valid_move b f t turn := by
  unfold is_valid_move_st is_valid_move is_move_legal_king_safety_st is_move_legal_king_safety
  cases h : lookup b f
  · exact ⟨rfl, rfl⟩
  · simp only []
    split_ifs <;> simp_all

/-- C2: is_valid_move performs the six checks in source order (source occupied,
piece color equals side, destination differs from source, no same-color piece
at the destination, pseudo-move of the piece, simulated king safety), it
short-circuits at the first failing check, each of the six failures returns
its own distinct rejection reason, and a move passing all six checks is
accepted. -/
theorem c2_validation_order_and_reasons (b : Board) (f t : Square) (s : PColor) :
    (lookup b f = none → is_valid_move b f t s = (false, msgNoPiece)) ∧
    (∀ pc : Piece, lookup b f = some pc →
      (pc.color ≠ s → is_valid_move b f t s = (false, msgNotYours)) ∧
      (pc.color = s → t = f → is_valid_move b f t s = (false, msgNullMove)) ∧
      (pc.color = s → t ≠ f → ownAt b t pc.color = true →
        is_valid_move b f t s = (false, msgOwnCapture)) ∧
      (pc.color = s → t ≠ f → ownAt b t pc.color = false →
        is_pseudo_legal_move b f t pc = false →
        is_valid_move b f t s = (false, msgIllegal)) ∧
      (pc.color = s → t ≠ f → ownAt b t pc.color = false →
        is_pseudo_legal_move b f t pc = true →
        is_move_legal_king_safety b f t pc.color = false →
        is_valid_move b f t s = (false, msgUnsafe)) ∧
      (pc.color = s → t ≠ f → ownAt b t pc.color = false →
        is_pseudo_legal_move b f t pc = true →
        is_move_legal_king_safety b f t pc.color = true →
        is_valid_move b f t s = (true, msgValid))) ∧
    List.Nodup [msgNoPiece, msgNotYours, msgNullMove, msgOwnCapture, msgIllegal, msgUnsafe] := by
  refine ⟨?_, ?_, by decide⟩
  · intro h
    unfold is_valid_move
    rw [h]
  · intro pc hpc
    refine ⟨?_, ?_, ?_, ?_, ?_, ?_⟩ <;> intro h1 <;> unfold is_valid_move <;> rw [hpc] <;>
      simp only []
    · rw [if_pos h1]
    all_goals intro h2
    · rw [if_neg (by simp [h1]), if_pos h2]
    all_goals intro h3
    · rw [if_neg (by simp [h1]), if_neg h2, if_pos h3]
    all_goals intro h4
    · rw [if_neg (by simp [h1]), if_neg h2, if_neg (by simp [h3]), if_pos (by simp [h4])]
    all_goals intro h5
    · rw [if_neg (by simp [h1]), if_neg h2, if_neg (by simp [h3]), if_neg (by simp [h4]),
        if_pos (by simp [h5])]
    · rw [if_neg (by simp [h1]), if_neg h2, if_neg (by simp [h3]), if_neg (by simp [h4]),
        if_neg (by simp [h5])]

/-- C2 witness: on a board with a vacant source square the first check fires
with its reason. -/
theorem c2_witness :
    lookup noKingBoard (2, 2) = none ∧
    is_valid_move noKingBoard (2, 2) (2, 3) PColor.w = (false, msgNoPiece) :=
  ⟨by decide, (c2_validation_order_and_reasons noKingBoard (2, 2) (2, 3) PColor.w).1 (by decide)⟩

/-- C3: check_game_status classifies as the claim states: checkmate with the
opposing side as winner when the side to move is in check with no legal move;
stalemate with no winner when not in check with no legal move; and with at
least one legal move it falls through to the material check and then returns
check (no winner) if in check, else the ongoing status. -/
theorem c3_game_status_classification (b : Board) (turn : PColor) :
    (is_in_check b turn = true → has_legal_moves b turn = false →
      check_game_status b turn =
        ("checkmate", some (colorName (enemyOf turn)), some msgCheckmate)) ∧
    (is_in_check b turn = false → has_legal_moves b turn = false →
      check_game_status b turn = ("stalemate", none, some msgStalemate)) ∧
    (has_legal_moves b turn = true →
      check_game_status b turn =
        (if is_insufficient_material b then ("draw", none, some msgDrawMaterial)
         else if is_in_check b turn then ("check", none, some msgCheck)
         else ("playing", none, none))) := by
  refine ⟨?_, ?_, ?_⟩ <;> intro h1 <;> unfold check_game_status
  · intro h2
    rw [h1, h2]
    rfl
  · intro h2
    rw [h1, h2]
    rfl
  · rw [h1]
    by_cases hm : is_insufficient_material b
    · simp [hm]
    · by_cases hc : is_in_check b turn <;> simp [hm, hc]

/-- C3 witness: a rook-and-kings middlegame position with legal moves,
sufficient material and no check classifies as ongoing. -/
theorem c3_witness :
    has_legal_moves openRookBoard PColor.w = true ∧
    check_game_status openRookBoard PColor.w = ("playing", none, none) := by
  refine ⟨by decide, ?_⟩
  rw [(c3_game_status_classification openRookBoard PColor.w).2.2 (by decide)]
  decide

theorem adj_scan_true {b : Board} {t ek : Square} {c : PColor}
    (hek : lookup b ek = some ⟨enemyOf c, PType.k⟩)
    (hekb : onBoard ek = true)
    (hadj : adjSq t ek) :
    is_adjacent_to_enemy_king b t c = true := by
  unfold is_adjacent_to_enemy_king
  rw [List.any_eq_true]
  refine ⟨(ek.1 - t.1, ek.2 - t.2), ?_, ?_⟩
  · obtain ⟨h1, h2, h3⟩ := hadj
    have h4 : ¬ (t.1 = ek.1 ∧ t.2 = ek.2) := by
      intro hc
      exact h3 (Prod.ext hc.1 hc.2)
    simp only [kingOffsets, List.mem_cons, List.not_mem_nil, or_false, Prod.mk.injEq]
    omega
  · have hs : shiftSq t (ek.1 - t.1, ek.2 - t.2) = ek := by
      unfold shiftSq
      simp
    simp [hs, hekb, hek]

/-- C6 (amended): a king move whose destination is adjacent to the opposing
king is never legal; it is rejected at the pseudo-move stage with the
geometrically-illegal reason provided the destination does not hold a piece of
the mover's own color (a same-color destination is rejected one check earlier
with the self-capture reason, as the counterexample shows), and the bot's king
pseudo-move generation excludes any such destination unconditionally. -/
theorem c6_king_cannot_approach_enemy_king (b : Board) (f t ek : Square) (c : PColor)
    (hk : lookup b f = some ⟨c, PType.k⟩)
    (hek : lookup b ek = some ⟨enemyOf c, PType.k⟩)
    (hekb : onBoard ek = true)
    (hadj : adjSq t ek)
    (hne : t ≠ f)
    (hown : ownAt b t c = false) :
    is_valid_move b f t c = (false, msgIllegal) ∧
    ∀ pos : Square, t ∉ get_king_moves pos c b := by
  have hscan := adj_scan_true hek hekb hadj
  constructor
  · have hpseudo : is_pseudo_legal_move b f t (⟨c, PType.k⟩ : Piece) = false := by
      unfold is_pseudo_legal_move is_valid_king_move
      simp only []
      split_ifs with hr
      · simp [hscan]
      · rfl
    unfold is_valid_move
    rw [hk]
    simp only []
    rw [if_neg (by simp), if_neg hne, if_neg (by simp [hown]), if_pos (by simp [hpseudo])]
  · intro pos hmem
    unfold get_king_moves at hmem
    rw [List.mem_filterMap] at hmem
    obtain ⟨d, hd, hpred⟩ := hmem
    simp only [] at hpred
    split_ifs at hpred with h1 h2 h3
    rw [Option.some.injEq] at hpred
    rw [hpred] at h3
    simp [hscan] at h3

/-- C6 counterexample: with the white king on e1, a white pawn on d2 and the
black king on c3, the destination d2 is adjacent to the opposing king, yet
is_valid_move rejects e1-d2 with the self-capture reason, not the
geometrically-illegal reason the claim requires. -/
theorem c6_counterexample :
    adjSq (4, 2) (3, 3) ∧
    lookup kingSelfCaptureBoard (3, 3) = some ⟨PColor.b, PType.k⟩ ∧
    lookup kingSelfCaptureBoard (5, 1) = some ⟨PColor.w, PType.k⟩ ∧
    is_valid_move kingSelfCaptureBoard (5, 1) (4, 2) PColor.w = (false, msgOwnCapture) ∧
    msgOwnCapture ≠ msgIllegal := by
  refine ⟨⟨by decide, by decide, by decide⟩, by decide, by decide, by decide, by decide⟩

/-- C6 witness: on the same position the vacant square c2, adjacent to the
black king, is refused to the white king with the geometric reason and is
absent from the bot's king pseudo-moves. -/
theorem c6_witness :
    is_valid_move kingSelfCaptureBoard (5, 1) (3, 2) PColor.w = (false, msgIllegal) ∧
    (3, 2) ∉ get_king_moves (5, 1) PColor.w kingSelfCaptureBoard := by
  have h := c6_king_cannot_approach_enemy_king kingSelfCaptureBoard (5, 1) (3, 2) (3, 3)
    PColor.w (by decide) (by decide) (by decide) ⟨by decide, by decide, by decide⟩
    (by decide) (by decide)
  exact ⟨h.1, h.2 (5, 1)⟩

/-- C7 (amended): when the moving side is in check and has a legal move, the
bot partitions the legal moves into non-king captures, non-king non-capturing
moves (blocks) and king moves (a capture by the king counts as a king move,
not a capture), and draws its answer from the first non-empty bucket in the
order capture, block, king move; in particular, whenever a non-king capture
exists among the legal moves, every move the bot can return is a non-king
capture.  A position whose only capture of the checking piece is a king
capture does not force a capture (see the counterexample). -/
theorem c7_check_escape_priority (b : Board) (c : PColor)
    (hchk : is_in_check b c = true)
    (hne : get_all_legal_moves b c ≠ []) :
    make_move_pool b c = select_check_escape_pool b (get_all_legal_moves b c) c ∧
    (∀ m ∈ get_all_legal_moves b c,
      m ∈ (get_all_legal_moves b c).filter
            (fun m => !(moveIsKingMove b m) && (lookup b m.2).isSome) ∨
      m ∈ (get_all_legal_moves b c).filter
            (fun m => !(moveIsKingMove b m) && (lookup b m.2).isNone) ∨
      m ∈ (get_all_legal_moves b c).filter (fun m => moveIsKingMove b m)) ∧
    ((get_all_legal_moves b c).filter
        (fun m => !(moveIsKingMove b m) && (lookup b m.2).isSome) ≠ [] →
      ∀ m ∈ make_move_pool b c,
        moveIsKingMove b m = false ∧ (lookup b m.2).isSome = true) := by
  have hpool : make_move_pool b c = select_check_escape_pool b (get_all_legal_moves b c) c := by
    unfold make_move_pool
    simp only [hchk, if_neg hne, if_true]
  refine ⟨hpool, ?_, ?_⟩
  · intro m hm
    by_cases hk : moveIsKingMove b m
    · exact Or.inr (Or.inr (List.mem_filter.mpr ⟨hm, hk⟩))
    · cases hocc : (lookup b m.2).isSome
      · refine Or.inr (Or.inl (List.mem_filter.mpr ⟨hm, ?_⟩))
        have hnone : lookup b m.2 = none := by
          cases hl : lookup b m.2
          · rfl
          · rw [hl] at hocc
            simp at hocc
        simp [hk, hnone]
      · exact Or.inl (List.mem_filter.mpr ⟨hm, by simp [hk, hocc]⟩)
  · intro hcaps m hm
    rw [hpool] at hm
    unfold select_check_escape_pool at hm
    rw [if_pos hcaps] at hm
    have := List.mem_filter.mp hm
    refine ⟨?_, ?_⟩ <;> simp_all

/-- C7 counterexample: white king e1 in check from the black rook e2; the only
legal capture of the checking piece is the king capture e1xe2, yet the bot's
choice pool is the king-move bucket and contains the non-capturing retreat
e1-d1, so the bot does not always return a capture move. -/
theorem c7_counterexample :
    is_in_check kingOnlyCaptureBoard PColor.w = true ∧
    (get_all_legal_moves kingOnlyCaptureBoard PColor.w).filter
      (fun m => decide (m.2 = ((5 : Int), (2 : Int)))) = [((5, 1), (5, 2))] ∧
    ((5, 1), (4, 1)) ∈ make_move_pool kingOnlyCaptureBoard PColor.w ∧
    lookup kingOnlyCaptureBoard (4, 1) = none := by
  exact ⟨by decide, by decide, by decide, by decide⟩

/-- C7 witness: white king a1 checked by the black rook a3, white rook e3 can
take it; a non-king capture exists, so every move in the bot's pool is a
non-king capture. -/
theorem c7_witness :
    is_in_check checkCaptureBoard PColor.w = true ∧
    get_all_legal_moves checkCaptureBoard PColor.w ≠ [] ∧
    (get_all_legal_moves checkCaptureBoard PColor.w).filter
      (fun m => !(moveIsKingMove checkCaptureBoard m) &&
        (lookup checkCaptureBoard m.2).isSome) ≠ [] ∧
    moveIsKingMove checkCaptureBoard ((5, 3), (1, 3)) = false ∧
    (lookup checkCaptureBoard ((5, 3), (1, 3)).2).isSome = true := by
  refine ⟨by decide, by decide, by decide, ?_⟩
  have h := (c7_check_escape_priority checkCaptureBoard PColor.w (by decide) (by decide)).2.2
    (by decide) ((5, 3), (1, 3)) (by decide)
  exact h

theorem findKing_simMove_none {b : Board} {f t : Square} {c : PColor}
    (hnk : findKing b c = none) : findKing (simMove b f t) c = none := by
  rw [findKing_eq_none_iff] at hnk ⊢
  unfold simMove
  cases hl : lookup b f with
  | none => exact hnk
  | some pc =>
    intro e he
    rcases mem_setKey_elim (mem_delKey.mp he).1 with h1 | h1
    · rw [h1]
      exact hnk (f, pc) (lookup_eq_some_mem hl)
    · exact hnk e h1

/-- C8 (amended): for a position in which the side's king is absent, the
in-check query treats the missing king as not-in-check rather than faulting,
and every candidate move is rejected; when the first five checks pass, the
rejection carries the ordinary king-safety reason (the source has no separate
KingNotFound reason; see the counterexample). -/
theorem c8_missing_king_guard (b : Board) (f t : Square) (c : PColor)
    (hnk : findKing b c = none) :
    is_in_check b c = false ∧
    (is_valid_move b f t c).1 = false ∧
    (∀ pc : Piece, lookup b f = some pc → pc.color = c → t ≠ f →
      ownAt b t pc.color = false → is_pseudo_legal_move b f t pc = true →
      is_valid_move b f t c = (false, msgUnsafe)) := by
  have hsafety : ∀ c2 : PColor, c2 = c → is_move_legal_king_safety b f t c2 = false := by
    intro c2 hc2
    rw [hc2]
    simp only [is_move_legal_king_safety]
    rw [findKing_simMove_none hnk]
  refine ⟨?_, ?_, ?_⟩
  · unfold is_in_check
    rw [hnk]
  · unfold is_valid_move
    rcases hl : lookup b f with _ | pc
    · rfl
    · simp only []
      split_ifs with h1 h2 h3 h4 h5
      all_goals try rfl
      exfalso
      have hc : pc.color = c := not_not.mp h1
      have hs := hsafety pc.color hc
      rw [hs] at h5
      simp at h5
  · intro pc hl hcol hne hown hps
    unfold is_valid_move
    rw [hl]
    simp only []
    rw [if_neg (by simp [hcol]), if_neg hne, if_neg (by simp [hown]),
      if_neg (by simp [hps]), if_pos (by simp [hsafety pc.color hcol])]

/-- C8 witness: the kingless board with a lone white pawn on a2: white is not
in check, and the pawn push a2-a3, which passes the first five checks, is
rejected with the king-safety reason. -/
theorem c8_witness :
    findKing noKingBoard PColor.w = none ∧
    is_in_check noKingBoard PColor.w = false ∧
    is_valid_move noKingBoard (1, 2) (1, 3) PColor.w = (false, msgUnsafe) := by
  have h := c8_missing_king_guard noKingBoard (1, 2) (1, 3) PColor.w (by decide)
  exact ⟨by decide, h.1, h.2.2 ⟨PColor.w, PType.p⟩ (by decide) (by decide) (by decide)
    (by decide) (by decide)⟩

/-- C8 counterexample: the rejection of a move on a board lacking the white
king carries the very same reason string as an ordinary move that would leave
the king in check (the pinned rook on pinnedRookBoard), so validation does not
reject with a distinct KingNotFound reason as the claim requires. -/
theorem c8_counterexample :
    findKing noKingBoard PColor.w = none ∧
    is_valid_move noKingBoard (1, 2) (1, 3) PColor.w = (false, msgUnsafe) ∧
    findKing pinnedRookBoard PColor.w = some (5, 1) ∧
    is_valid_move pinnedRookBoard (5, 3) (4, 3) PColor.w = (false, msgUnsafe) := by
  exact ⟨by decide, by decide, by decide, by decide⟩

theorem shiftSq_fst (s d : Square) : (shiftSq s d).1 = s.1 + d.1 := rfl

theorem shiftSq_snd (s d : Square) : (shiftSq s d).2 = s.2 + d.2 := rfl

theorem kingOffsets_bounds :
    ∀ d ∈ kingOffsets, d.1.natAbs ≤ 1 ∧ d.2.natAbs ≤ 1 ∧ ¬ (d.1 = 0 ∧ d.2 = 0) := by
  decide

theorem enemyOf_ne (c : PColor) : enemyOf c ≠ c := by
  cases c <;> decide

/-- On any pair of distinct board squares holding the two kings, the king on k
has an on-board neighbor square that is the enemy square itself or is not
adjacent to the enemy square; checked over all 64 x 64 placements. -/
theorem kings_escape_square :
    ∀ k ∈ allSquaresList, ∀ e ∈ allSquaresList, k ≠ e →
      ∃ d ∈ kingOffsets, onBoard (shiftSq k d) = true ∧
        (shiftSq k d = e ∨ ¬ adjSq (shiftSq k d) e) := by
  decide

theorem mem_allSquaresList_of_onBoard {s : Square} (h : onBoard s = true) :
    s ∈ allSquaresList := by
  unfold onBoard at h
  rw [decide_eq_true_eq] at h
  obtain ⟨h1, h2, h3, h4⟩ := h
  obtain ⟨c, r⟩ := s
  simp only [] at h1 h2 h3 h4
  interval_cases c <;> interval_cases r <;> decide

theorem sliding_go_only_kings {b : Board} (hk : ∀ e ∈ b, e.2.ptype = PType.k)
    {types : List PType} (hkt : PType.k ∉ types) (byc : PColor) (d : Square) :
    ∀ (fuel : Nat) (cur : Square), check_sliding_attack_go b byc types d cur fuel = false := by
  intro fuel
  induction fuel with
  | zero =>
    intro cur
    rfl
  | succ n ih =>
    intro cur
    unfold check_sliding_attack_go
    simp only []
    split_ifs with h1
    · cases hl : lookup b (shiftSq cur d) with
      | none => exact ih (shiftSq cur d)
      | some pc =>
        have hpt : pc.ptype = PType.k := hk _ (lookup_eq_some_mem hl)
        simp only [decide_eq_false_iff_not]
        intro hcon
        exact hkt (hpt ▸ hcon.2)
    · rfl

theorem attack_only_kings {b : Board} (hk : ∀ e ∈ b, e.2.ptype = PType.k)
    (sq : Square) (byc : PColor) :
    is_square_under_attack b sq byc = true ↔
      ∃ d ∈ kingOffsets, onBoard (shiftSq sq d) = true ∧
        lookup b (shiftSq sq d) = some ⟨byc, PType.k⟩ := by
  unfold is_square_under_attack
  simp only [Bool.or_eq_true, List.any_eq_true, Bool.and_eq_true, decide_eq_true_eq]
  constructor
  · intro h
    rcases h with (((h | h) | h) | h) | h
    · obtain ⟨dc, _, _, hlk⟩ := h
      exact absurd (hk _ (lookup_eq_some_mem hlk)) (by simp)
    · obtain ⟨d, _, _, hlk⟩ := h
      exact absurd (hk _ (lookup_eq_some_mem hlk)) (by simp)
    · obtain ⟨d, hd, hob, hlk⟩ := h
      exact ⟨d, hd, hob, hlk⟩
    · obtain ⟨d, hd, hc⟩ := h
      rw [check_sliding_attack, sliding_go_only_kings hk (by decide) byc d 7 sq] at hc
      cases hc
    · obtain ⟨d, hd, hc⟩ := h
      rw [check_sliding_attack, sliding_go_only_kings hk (by decide) byc d 7 sq] at hc
      cases hc
  · intro h
    obtain ⟨d, hd, hob, hlk⟩ := h
    exact Or.inl (Or.inl (Or.inr ⟨d, hd, hob, hlk⟩))

theorem twoKings_has_legal_move (b : Board) (c : PColor) (ks es : Square)
    (hown : lookup b ks = some ⟨c, PType.k⟩)
    (hen : lookup b es = some ⟨enemyOf c, PType.k⟩)
    (hother : ∀ s : Square, s ≠ ks → s ≠ es → lookup b s = none)
    (hchar : ∀ e ∈ b, e = (ks, (⟨c, PType.k⟩ : Piece)) ∨ e = (es, (⟨enemyOf c, PType.k⟩ : Piece)))
    (hmem : (ks, (⟨c, PType.k⟩ : Piece)) ∈ b)
    (hksb : onBoard ks = true) (hesb : onBoard es = true) (hne : ks ≠ es) :
    has_legal_moves b c = true := by
  have hcne : enemyOf c ≠ c := enemyOf_ne c
  obtain ⟨d, hd, hob, hdisj⟩ := kings_escape_square ks (mem_allSquaresList_of_onBoard hksb)
    es (mem_allSquaresList_of_onBoard hesb) hne
  set t := shiftSq ks d with htdef
  have hdb := kingOffsets_bounds d hd
  have ht1 : t.1 = ks.1 + d.1 := by rw [htdef, shiftSq_fst]
  have ht2 : t.2 = ks.2 + d.2 := by rw [htdef, shiftSq_snd]
  have htks : t ≠ ks := by
    intro hc
    have h1 : t.1 = ks.1 := by rw [hc]
    have h2 : t.2 = ks.2 := by rw [hc]
    exact hdb.2.2 ⟨by omega, by omega⟩
  have hlt : lookup b t = if t = es then some ⟨enemyOf c, PType.k⟩ else none := by
    by_cases hte : t = es
    · rw [if_pos hte, hte, hen]
    · rw [if_neg hte]
      exact hother t htks hte
  have hownAt : ownAt b t c = false := by
    unfold ownAt
    rw [hlt]
    split_ifs with hte
    · simp [hcne]
    · rfl
  have hadjscan : is_adjacent_to_enemy_king b t c = false := by
    rw [Bool.eq_false_iff]
    intro hcon
    unfold is_adjacent_to_enemy_king at hcon
    rw [List.any_eq_true] at hcon
    obtain ⟨d2, hd2, hp⟩ := hcon
    simp only [Bool.and_eq_true, decide_eq_true_eq] at hp
    obtain ⟨hob2, hlk⟩ := hp
    set a := shiftSq t d2 with hadef
    have ha1 : a.1 = t.1 + d2.1 := by rw [hadef, shiftSq_fst]
    have ha2 : a.2 = t.2 + d2.2 := by rw [hadef, shiftSq_snd]
    have hb2 := kingOffsets_bounds d2 hd2
    have hane : a ≠ ks := by
      intro hc
      rw [hc, hown] at hlk
      simp only [Option.some.injEq, Piece.mk.injEq] at hlk
      exact hcne hlk.1.symm
    have haes : a = es := by
      by_contra hc
      rw [hother a hane hc] at hlk
      cases hlk
    have he1 : es.1 = a.1 := by rw [haes]
    have he2 : es.2 = a.2 := by rw [haes]
    rcases hdisj with hq | hq
    · have h1 : a.1 = t.1 := by rw [haes, hq]
      have h2 : a.2 = t.2 := by rw [haes, hq]
      exact hb2.2.2 ⟨by omega, by omega⟩
    · apply hq
      refine ⟨by omega, by omega, ?_⟩
      intro hc
      have hc1 : t.1 = es.1 := by rw [hc]
      have hc2 : t.2 = es.2 := by rw [hc]
      exact hb2.2.2 ⟨by omega, by omega⟩
  have hpseudo : is_pseudo_legal_move b ks t (⟨c, PType.k⟩ : Piece) = true := by
    unfold is_pseudo_legal_move is_valid_king_move
    simp only []
    have hcond : (t.1 - ks.1).natAbs ≤ 1 ∧ (t.2 - ks.2).natAbs ≤ 1 := ⟨by omega, by omega⟩
    rw [if_pos hcond, hadjscan]
    rfl
  have hsimlookup : ∀ s : Square, lookup (simMove b ks t) s =
      if s = ks then none else if s = t then some ⟨c, PType.k⟩ else lookup b s := by
    intro s
    unfold simMove
    rw [hown, lookup_delKey, lookup_setKey]
  have hsimmem : ∀ e2 ∈ simMove b ks t,
      e2 = (t, (⟨c, PType.k⟩ : Piece)) ∨ (e2 ∈ b ∧ e2.1 ≠ ks) := by
    intro e2 he2
    unfold simMove at he2
    rw [hown] at he2
    have h1 := mem_delKey.mp he2
    rcases mem_setKey_elim h1.1 with h2 | h2
    · exact Or.inl h2
    · exact Or.inr ⟨h2, h1.2⟩
  have hfk : findKing (simMove b ks t) c = some t := by
    apply findKing_eq_some_of
    · rw [hsimlookup, if_neg htks, if_pos rfl]
    · intro e2 he2 hval
      rcases hsimmem e2 he2 with h1 | h1
      · rw [h1]
      · exfalso
        rcases hchar e2 h1.1 with h2 | h2
        · rw [h2] at h1
          exact h1.2 rfl
        · rw [h2] at hval
          simp only [Piece.mk.injEq] at hval
          exact hcne hval.1
  have hsimkings : ∀ e2 ∈ simMove b ks t, e2.2.ptype = PType.k := by
    intro e2 he2
    rcases hsimmem e2 he2 with h1 | h1
    · rw [h1]
    · rcases hchar e2 h1.1 with h2 | h2 <;> rw [h2]
  have hatt : is_square_under_attack (simMove b ks t) t (enemyOf c) = false := by
    rw [Bool.eq_false_iff]
    intro hcon
    obtain ⟨d2, hd2, hob2, hlk⟩ := (attack_only_kings hsimkings t (enemyOf c)).mp hcon
    rw [hsimlookup] at hlk
    set a := shiftSq t d2 with hadef
    have ha1 : a.1 = t.1 + d2.1 := by rw [hadef, shiftSq_fst]
    have ha2 : a.2 = t.2 + d2.2 := by rw [hadef, shiftSq_snd]
    have hb2 := kingOffsets_bounds d2 hd2
    by_cases h1 : a = ks
    · rw [if_pos h1] at hlk
      cases hlk
    · rw [if_neg h1] at hlk
      by_cases h2 : a = t
      · rw [if_pos h2] at hlk
        simp only [Option.some.injEq, Piece.mk.injEq] at hlk
        exact hcne hlk.1.symm
      · rw [if_neg h2] at hlk
        have haes : a = es := by
          by_contra hc
          rw [hother a h1 hc] at hlk
          cases hlk
        have he1 : es.1 = a.1 := by rw [haes]
        have he2 : es.2 = a.2 := by rw [haes]
        rcases hdisj with hq | hq
        · exact h2 (by rw [haes, hq])
        · apply hq
          refine ⟨by omega, by omega, ?_⟩
          intro hc
          exact h2 (by rw [haes, hc])
  have hsafe : is_move_legal_king_safety b ks t c = true := by
    simp only [is_move_legal_king_safety]
    rw [hfk]
    show (!is_square_under_attack (simMove b ks t) t (enemyOf c)) = true
    rw [hatt]
    rfl
  have hvalid : (is_valid_move b ks t c).1 = true := by
    unfold is_valid_move
    rw [hown]
    simp only []
    rw [if_neg (by simp), if_neg htks, if_neg (by simp [hownAt]),
      if_neg (by simp [hpseudo]), if_neg (by simp [hsafe])]
  unfold has_legal_moves
  rw [List.any_eq_true]
  refine ⟨(ks, ⟨c, PType.k⟩), hmem, ?_⟩
  simp only [Bool.and_eq_true, decide_eq_true_eq]
  refine ⟨by simp, ?_⟩
  rw [List.any_eq_true]
  refine ⟨t, mem_allSquaresList_of_onBoard hob, ?_⟩
  simp only [Bool.and_eq_true, decide_eq_true_eq]
  exact ⟨htks, hvalid⟩

theorem map_any_ptype (b : Board) (ty : PType) :
    ((b.map (fun e => e.2)).map (fun pc => pc.ptype)).any (fun x => decide (x = ty)) = true ↔
      ∃ e ∈ b, e.2.ptype = ty := by
  rw [List.any_eq_true]
  constructor
  · rintro ⟨x, hx, hde⟩
    rw [decide_eq_true_eq] at hde
    rw [List.mem_map] at hx
    obtain ⟨pc, hpc, hx2⟩ := hx
    rw [List.mem_map] at hpc
    obtain ⟨e, he, hpc2⟩ := hpc
    refine ⟨e, he, ?_⟩
    rw [← hpc2] at hx2
    rw [hx2, hde]
  · rintro ⟨e, he, hty⟩
    refine ⟨ty, ?_, by simp⟩
    rw [List.mem_map]
    refine ⟨e.2, ?_, hty⟩
    exact List.mem_map_of_mem _ he

/-- C4: the material-insufficiency check fires only when the side to move has
at least one legal move (without one the classification is checkmate or
stalemate, never draw); it declares a draw exactly when 2 pieces remain on the
board or exactly 3 pieces remain with a knight or bishop among them; and a
position holding only the two kings classifies as draw-insufficient-material
regardless of whose turn it is. -/
theorem c4_insufficient_material_draw :
    (∀ b : Board, is_insufficient_material b = true ↔
      (b.length = 2 ∨ (b.length = 3 ∧ ∃ e ∈ b, e.2.ptype = PType.n ∨ e.2.ptype = PType.b))) ∧
    (∀ (b : Board) (c : PColor), has_legal_moves b c = false →
      (check_game_status b c).1 ≠ "draw") ∧
    (∀ (k e : Square) (b : Board) (turn : PColor),
      onBoard k = true → onBoard e = true → k ≠ e →
      (b = [(k, ⟨PColor.w, PType.k⟩), (e, ⟨PColor.b, PType.k⟩)] ∨
       b = [(e, ⟨PColor.b, PType.k⟩), (k, ⟨PColor.w, PType.k⟩)]) →
      check_game_status b turn = ("draw", none, some msgDrawMaterial)) := by
  refine ⟨?_, ?_, ?_⟩
  · intro b
    unfold is_insufficient_material
    simp only [List.length_map]
    by_cases h2 : b.length = 2
    · simp [h2]
    · rw [if_neg h2]
      by_cases h3 : b.length = 3
      · rw [if_pos h3, Bool.or_eq_true, map_any_ptype b PType.n, map_any_ptype b PType.b]
        constructor
        · rintro (⟨e, he, hp⟩ | ⟨e, he, hp⟩)
          · exact Or.inr ⟨h3, e, he, Or.inl hp⟩
          · exact Or.inr ⟨h3, e, he, Or.inr hp⟩
        · rintro (hc | ⟨_, e, he, hp | hp⟩)
          · exact absurd hc h2
          · exact Or.inl ⟨e, he, hp⟩
          · exact Or.inr ⟨e, he, hp⟩
      · rw [if_neg h3]
        constructor
        · intro h
          cases h
        · rintro (hc | ⟨hc, _⟩)
          · exact absurd hc h2
          · exact absurd hc h3
  · intro b c hno
    unfold check_game_status
    rw [hno]
    by_cases hic : is_in_check b c <;> simp [hic]
  · intro k e b turn hkb heb hne hb
    have hne2 : e ≠ k := Ne.symm hne
    have hown : lookup b k = some ⟨PColor.w, PType.k⟩ := by
      rcases hb with hb | hb <;> rw [hb] <;> simp [lookup, hne2]
    have henemy : lookup b e = some ⟨PColor.b, PType.k⟩ := by
      rcases hb with hb | hb <;> rw [hb] <;> simp [lookup, hne]
    have hother : ∀ s : Square, s ≠ k → s ≠ e → lookup b s = none := by
      intro s h1 h2
      have h1s : k ≠ s := Ne.symm h1
      have h2s : e ≠ s := Ne.symm h2
      rcases hb with hb | hb <;> rw [hb] <;> simp [lookup, h1s, h2s]
    have hchar : ∀ x ∈ b,
        x = (k, (⟨PColor.w, PType.k⟩ : Piece)) ∨ x = (e, (⟨PColor.b, PType.k⟩ : Piece)) := by
      intro x hx
      rcases hb with hb | hb <;> rw [hb] at hx <;> simp at hx <;> tauto
    have hmemw : (k, (⟨PColor.w, PType.k⟩ : Piece)) ∈ b := by
      rcases hb with hb | hb <;> rw [hb] <;> simp
    have hmemb : (e, (⟨PColor.b, PType.k⟩ : Piece)) ∈ b := by
      rcases hb with hb | hb <;> rw [hb] <;> simp
    have hlen : b.length = 2 := by
      rcases hb with hb | hb <;> rw [hb] <;> rfl
    have hhas : has_legal_moves b turn = true := by
      cases turn
      · exact twoKings_has_legal_move b PColor.w k e hown henemy hother hchar hmemw hkb heb hne
      · exact twoKings_has_legal_move b PColor.b e k henemy hown
          (fun s h1 h2 => hother s h2 h1) (fun x hx => Or.symm (hchar x hx)) hmemb heb hkb hne2
    have hins : is_insufficient_material b = true := by
      unfold is_insufficient_material
      simp only [List.length_map, hlen]
      rfl
    simp only [check_game_status]
    rw [hhas, hins]
    rfl

/-- C4 witness: the concrete two-king position with white king c3 and black
king f6, black to move, classifies as the insufficient-material draw. -/
theorem c4_witness :
    onBoard (3, 3) = true ∧ onBoard (6, 6) = true ∧ ((3, 3) : Square) ≠ (6, 6) ∧
    check_game_status
      [((3, 3), ⟨PColor.w, PType.k⟩), ((6, 6), ⟨PColor.b, PType.k⟩)] PColor.b =
      ("draw", none, some msgDrawMaterial) := by
  refine ⟨by decide, by decide, by decide, ?_⟩
  exact c4_insufficient_material_draw.2.2 (3, 3) (6, 6)
    [((3, 3), ⟨PColor.w, PType.k⟩), ((6, 6), ⟨PColor.b, PType.k⟩)] PColor.b
    (by decide) (by decide) (by decide) (Or.inl rfl)

theorem onBoard_iff {s : Square} :
    onBoard s = true ↔ (1 ≤ s.1 ∧ s.1 ≤ 8 ∧ 1 ≤ s.2 ∧ s.2 ≤ 8) := by
  unfold onBoard
  exact decide_eq_true_iff

theorem rayPoint_one (s d : Square) : rayPoint s d 1 = shiftSq s d := by
  unfold rayPoint shiftSq
  simp

theorem rayPoint_succ_shift (s d : Square) (j : Nat) :
    rayPoint s d (j + 1) = rayPoint (shiftSq s d) d j := by
  unfold rayPoint shiftSq
  simp only [Prod.mk.injEq]
  constructor <;> push_cast <;> ring

theorem mem_pathSquares {s d x : Square} {n : Nat} :
    x ∈ pathSquares s d n ↔ ∃ j : Nat, 1 ≤ j ∧ j ≤ n ∧ x = rayPoint s d j := by
  unfold pathSquares
  rw [List.mem_map]
  constructor
  · rintro ⟨i, hi, hx⟩
    rw [List.mem_range] at hi
    refine ⟨i + 1, by omega, by omega, ?_⟩
    rw [← hx]
    unfold rayPoint
    simp only [Prod.mk.injEq]
    constructor <;> push_cast <;> ring
  · rintro ⟨j, h1, h2, hx⟩
    refine ⟨j - 1, ?_, ?_⟩
    · rw [List.mem_range]
      omega
    · rw [hx]
      unfold rayPoint
      have hj : ((j - 1 : Nat) : Int) + 1 = (j : Int) := by omega
      simp only [Prod.mk.injEq]
      rw [hj]
      exact ⟨rfl, rfl⟩

theorem mem_slide_go {b : Board} {c : PColor} {d : Square} :
    ∀ (fuel : Nat) (cur t : Square),
      t ∈ get_sliding_moves_go b c d cur fuel ↔
        ∃ k : Nat, 1 ≤ k ∧ k ≤ fuel ∧ t = rayPoint cur d k ∧
          (∀ j : Nat, 1 ≤ j → j ≤ k → onBoard (rayPoint cur d j) = true) ∧
          (∀ j : Nat, 1 ≤ j → j < k → lookup b (rayPoint cur d j) = none) ∧
          (lookup b t = none ∨ ∃ pc : Piece, lookup b t = some pc ∧ pc.color ≠ c) := by
  intro fuel
  induction fuel with
  | zero =>
    intro cur t
    constructor
    · intro h
      cases h
    · rintro ⟨k, h1, h2, _⟩
      omega
  | succ n ih =>
    intro cur t
    unfold get_sliding_moves_go
    simp only []
    by_cases hob1 : onBoard (shiftSq cur d) = true
    · rw [if_pos hob1]
      cases hl : lookup b (shiftSq cur d) with
      | some pc =>
        dsimp only []
        by_cases hcol : pc.color ≠ c
        · rw [if_pos hcol]
          constructor
          · intro hmem
            rw [List.mem_singleton] at hmem
            subst hmem
            refine ⟨1, le_refl 1, by omega, (rayPoint_one cur d).symm, ?_, ?_, ?_⟩
            · intro j hj1 hj2
              have hj : j = 1 := by omega
              subst hj
              rw [rayPoint_one]
              exact hob1
            · intro j hj1 hj2
              omega
            · exact Or.inr ⟨pc, hl, hcol⟩
          · rintro ⟨k, hk1, hk2, ht, hbnd, hemp, hfin⟩
            have hk : k = 1 := by
              by_contra hkc
              have h1e := hemp 1 (by omega) (by omega)
              rw [rayPoint_one] at h1e
              rw [h1e] at hl
              cases hl
            subst hk
            rw [rayPoint_one] at ht
            rw [List.mem_singleton]
            exact ht
        · rw [if_neg hcol]
          push_neg at hcol
          constructor
          · intro h
            cases h
          · rintro ⟨k, hk1, hk2, ht, hbnd, hemp, hfin⟩
            exfalso
            have hk : k = 1 := by
              by_contra hkc
              have h1e := hemp 1 (by omega) (by omega)
              rw [rayPoint_one] at h1e
              rw [h1e] at hl
              cases hl
            subst hk
            rw [rayPoint_one] at ht
            rcases hfin with hf1 | ⟨pc2, hf2, hf3⟩
            · rw [ht, hl] at hf1
              cases hf1
            · rw [ht, hl] at hf2
              rw [Option.some.injEq] at hf2
              apply hf3
              rw [← hf2, hcol]
      | none =>
        dsimp only []
        constructor
        · intro hmem
          rw [List.mem_cons] at hmem
          rcases hmem with hmem | hmem
          · subst hmem
            refine ⟨1, le_refl 1, by omega, (rayPoint_one cur d).symm, ?_, ?_, Or.inl hl⟩
            · intro j hj1 hj2
              have hj : j = 1 := by omega
              subst hj
              rw [rayPoint_one]
              exact hob1
            · intro j hj1 hj2
              omega
          · obtain ⟨k, hk1, hk2, ht, hbnd, hemp, hfin⟩ := (ih (shiftSq cur d) t).mp hmem
            refine ⟨k + 1, by omega, by omega, ?_, ?_, ?_, hfin⟩
            · rw [ht, rayPoint_succ_shift]
            · intro j hj1 hj2
              by_cases hj : j = 1
              · subst hj
                rw [rayPoint_one]
                exact hob1
              · have hj1e : j - 1 + 1 = j := by omega
                rw [← hj1e, rayPoint_succ_shift]
                exact hbnd (j - 1) (by omega) (by omega)
            · intro j hj1 hj2
              by_cases hj : j = 1
              · subst hj
                rw [rayPoint_one]
                exact hl
              · have hj1e : j - 1 + 1 = j := by omega
                rw [← hj1e, rayPoint_succ_shift]
                exact hemp (j - 1) (by omega) (by omega)
        · rintro ⟨k, hk1, hk2, ht, hbnd, hemp, hfin⟩
          rw [List.mem_cons]
          by_cases hk : k = 1
          · subst hk
            rw [rayPoint_one] at ht
            exact Or.inl ht
          · right
            apply (ih (shiftSq cur d) t).mpr
            refine ⟨k - 1, by omega, by omega, ?_, ?_, ?_, hfin⟩
            · have hke : k - 1 + 1 = k := by omega
              rw [ht]
              have h2 : rayPoint cur d k = rayPoint cur d ((k - 1) + 1) := by rw [hke]
              rw [h2, rayPoint_succ_shift]
            · intro j hj1 hj2
              have hb := hbnd (j + 1) (by omega) (by omega)
              rw [rayPoint_succ_shift] at hb
              exact hb
            · intro j hj1 hj2
              have hb := hemp (j + 1) (by omega) (by omega)
              rw [rayPoint_succ_shift] at hb
              exact hb
    · rw [if_neg hob1]
      constructor
      · intro h
        cases h
      · rintro ⟨k, hk1, hk2, ht, hbnd, hemp, hfin⟩
        have h1b := hbnd 1 (by omega) (by omega)
        rw [rayPoint_one] at h1b
        exact absurd h1b hob1

theorem rayPoint_fst (s d : Square) (j : Nat) : (rayPoint s d j).1 = s.1 + d.1 * (j : Int) := rfl

theorem rayPoint_snd (s d : Square) (j : Nat) : (rayPoint s d j).2 = s.2 + d.2 * (j : Int) := rfl

theorem ownAt_false_iff {b : Board} {t : Square} {c : PColor} :
    ownAt b t c = false ↔
      (lookup b t = none ∨ ∃ pc : Piece, lookup b t = some pc ∧ pc.color ≠ c) := by
  unfold ownAt
  cases hl : lookup b t with
  | none => simp
  | some pc =>
    dsimp only []
    constructor
    · intro h
      rw [decide_eq_false_iff_not] at h
      exact Or.inr ⟨pc, rfl, h⟩
    · rintro (hc | ⟨pc2, heq, hne2⟩)
      · cases hc
      · rw [decide_eq_false_iff_not]
        rw [Option.some.injEq] at heq
        rw [heq]
        exact hne2

theorem straight_clear_of_vert_slide {b : Board} {f t : Square} {k : Nat} {step : Int}
    (hstep : step = 1 ∨ step = -1) (hk1 : 1 ≤ k)
    (ht : t = rayPoint f (0, step) k)
    (hemp : ∀ j : Nat, 1 ≤ j → j < k → lookup b (rayPoint f (0, step) j) = none) :
    is_straight_clear b f t = true := by
  have ht1 : t.1 = f.1 := by
    rw [ht, rayPoint_fst]
    ring
  have ht2 : t.2 = f.2 + step * k := by
    rw [ht, rayPoint_snd]
  unfold is_straight_clear
  rw [if_neg (fun hc => hc.1 ht1.symm), if_pos ht1.symm]
  dsimp only []
  have hstep2 : (if t.2 > f.2 then (1 : Int) else -1) = step := by
    rcases hstep with h | h <;> subst h
    · rw [if_pos (by omega)]
    · rw [if_neg (by omega)]
  have hkeq : (t.2 - f.2).natAbs - 1 = k - 1 := by
    rcases hstep with h | h <;> subst h <;> omega
  rw [hstep2, hkeq, List.all_eq_true]
  intro x hx
  obtain ⟨j, hj1, hj2, hx2⟩ := mem_pathSquares.mp hx
  rw [hx2, decide_eq_true_iff]
  exact hemp j hj1 (by omega)

theorem straight_clear_of_horiz_slide {b : Board} {f t : Square} {k : Nat} {step : Int}
    (hstep : step = 1 ∨ step = -1) (hk1 : 1 ≤ k)
    (ht : t = rayPoint f (step, 0) k)
    (hemp : ∀ j : Nat, 1 ≤ j → j < k → lookup b (rayPoint f (step, 0) j) = none) :
    is_straight_clear b f t = true := by
  have ht1 : t.1 = f.1 + step * k := by
    rw [ht, rayPoint_fst]
  have ht2 : t.2 = f.2 := by
    rw [ht, rayPoint_snd]
    ring
  have hcol : f.1 ≠ t.1 := by
    rcases hstep with h | h <;> subst h <;> omega
  unfold is_straight_clear
  rw [if_neg (fun hc => hc.2 ht2.symm), if_neg (fun hc => hcol hc)]
  dsimp only []
  have hstep2 : (if t.1 > f.1 then (1 : Int) else -1) = step := by
    rcases hstep with h | h <;> subst h
    · rw [if_pos (by omega)]
    · rw [if_neg (by omega)]
  have hkeq : (t.1 - f.1).natAbs - 1 = k - 1 := by
    rcases hstep with h | h <;> subst h <;> omega
  rw [hstep2, hkeq, List.all_eq_true]
  intro x hx
  obtain ⟨j, hj1, hj2, hx2⟩ := mem_pathSquares.mp hx
  rw [hx2, decide_eq_true_iff]
  exact hemp j hj1 (by omega)

theorem diag_clear_of_slide {b : Board} {f t : Square} {k : Nat} {cs rs : Int}
    (hcs : cs = 1 ∨ cs = -1) (hrs : rs = 1 ∨ rs = -1) (hk1 : 1 ≤ k)
    (ht : t = rayPoint f (cs, rs) k)
    (hemp : ∀ j : Nat, 1 ≤ j → j < k → lookup b (rayPoint f (cs, rs) j) = none) :
    is_diagonal_clear b f t = true := by
  have ht1 : t.1 = f.1 + cs * k := by
    rw [ht, rayPoint_fst]
  have ht2 : t.2 = f.2 + rs * k := by
    rw [ht, rayPoint_snd]
  unfold is_diagonal_clear
  dsimp only []
  have habs : (t.1 - f.1).natAbs = (t.2 - f.2).natAbs := by
    rcases hcs with h | h <;> rcases hrs with h2 | h2 <;> subst h <;> subst h2 <;> omega
  rw [if_neg (fun hc => hc habs)]
  have hcs2 : (if t.1 - f.1 > 0 then (1 : Int) else -1) = cs := by
    rcases hcs with h | h <;> subst h
    · rw [if_pos (by omega)]
    · rw [if_neg (by omega)]
  have hrs2 : (if t.2 - f.2 > 0 then (1 : Int) else -1) = rs := by
    rcases hrs with h | h <;> subst h
    · rw [if_pos (by omega)]
    · rw [if_neg (by omega)]
  have hkeq : (t.1 - f.1).natAbs - 1 = k - 1 := by
    rcases hcs with h | h <;> subst h <;> omega
  rw [hcs2, hrs2, hkeq, List.all_eq_true]
  intro x hx
  obtain ⟨j, hj1, hj2, hx2⟩ := mem_pathSquares.mp hx
  rw [hx2, decide_eq_true_iff]
  exact hemp j hj1 (by omega)

theorem vert_slide_of_straight_clear {b : Board} {f t : Square}
    (hcol : f.1 = t.1) (hne : t ≠ f)
    (hclear : is_straight_clear b f t = true) :
    ∃ step : Int, (step = 1 ∨ step = -1) ∧
      t = rayPoint f (0, step) ((t.2 - f.2).natAbs) ∧ 1 ≤ (t.2 - f.2).natAbs ∧
      ∀ j : Nat, 1 ≤ j → j < (t.2 - f.2).natAbs →
        lookup b (rayPoint f (0, step) j) = none := by
  have hrow : t.2 ≠ f.2 := by
    intro hc
    exact hne (Prod.ext hcol.symm hc)
  unfold is_straight_clear at hclear
  rw [if_neg (fun hc => hc.1 hcol), if_pos hcol] at hclear
  dsimp only [] at hclear
  rw [List.all_eq_true] at hclear
  refine ⟨if t.2 > f.2 then 1 else -1, ?_, ?_, by omega, ?_⟩
  · by_cases h : t.2 > f.2
    · rw [if_pos h]
      exact Or.inl rfl
    · rw [if_neg h]
      exact Or.inr rfl
  · apply Prod.ext
    · rw [rayPoint_fst]
      omega
    · rw [rayPoint_snd]
      by_cases h : t.2 > f.2
      · rw [if_pos h]
        omega
      · rw [if_neg h]
        omega
  · intro j hj1 hj2
    have hx : rayPoint f (0, if t.2 > f.2 then 1 else -1) j ∈
        pathSquares f (0, if t.2 > f.2 then 1 else -1) ((t.2 - f.2).natAbs - 1) :=
      mem_pathSquares.mpr ⟨j, hj1, by omega, rfl⟩
    have hz := hclear _ hx
    rw [decide_eq_true_iff] at hz
    exact hz

theorem horiz_slide_of_straight_clear {b : Board} {f t : Square}
    (hrow : f.2 = t.2) (hne : t ≠ f)
    (hclear : is_straight_clear b f t = true) :
    ∃ step : Int, (step = 1 ∨ step = -1) ∧
      t = rayPoint f (step, 0) ((t.1 - f.1).natAbs) ∧ 1 ≤ (t.1 - f.1).natAbs ∧
      ∀ j : Nat, 1 ≤ j → j < (t.1 - f.1).natAbs →
        lookup b (rayPoint f (step, 0) j) = none := by
  have hcol : t.1 ≠ f.1 := by
    intro hc
    exact hne (Prod.ext hc hrow.symm)
  unfold is_straight_clear at hclear
  rw [if_neg (fun hc => hc.2 hrow), if_neg (fun hc => hcol hc.symm)] at hclear
  dsimp only [] at hclear
  rw [List.all_eq_true] at hclear
  refine ⟨if t.1 > f.1 then 1 else -1, ?_, ?_, by omega, ?_⟩
  · by_cases h : t.1 > f.1
    · rw [if_pos h]
      exact Or.inl rfl
    · rw [if_neg h]
      exact Or.inr rfl
  · apply Prod.ext
    · rw [rayPoint_fst]
      by_cases h : t.1 > f.1
      · rw [if_pos h]
        omega
      · rw [if_neg h]
        omega
    · rw [rayPoint_snd]
      omega
  · intro j hj1 hj2
    have hx : rayPoint f (if t.1 > f.1 then 1 else -1, 0) j ∈
        pathSquares f (if t.1 > f.1 then 1 else -1, 0) ((t.1 - f.1).natAbs - 1) :=
      mem_pathSquares.mpr ⟨j, hj1, by omega, rfl⟩
    have hz := hclear _ hx
    rw [decide_eq_true_iff] at hz
    exact hz

theorem diag_slide_of_clear {b : Board} {f t : Square} (hne : t ≠ f)
    (hclear : is_diagonal_clear b f t = true) :
    ∃ cs rs : Int, (cs = 1 ∨ cs = -1) ∧ (rs = 1 ∨ rs = -1) ∧
      (t.1 - f.1).natAbs = (t.2 - f.2).natAbs ∧
      t = rayPoint f (cs, rs) ((t.1 - f.1).natAbs) ∧ 1 ≤ (t.1 - f.1).natAbs ∧
      ∀ j : Nat, 1 ≤ j → j < (t.1 - f.1).natAbs →
        lookup b (rayPoint f (cs, rs) j) = none := by
  unfold is_diagonal_clear at hclear
  dsimp only [] at hclear
  have habs : (t.1 - f.1).natAbs = (t.2 - f.2).natAbs := by
    by_contra hc
    rw [if_pos hc] at hclear
    cases hclear
  rw [if_neg (fun hc => hc habs)] at hclear
  rw [List.all_eq_true] at hclear
  have hk1 : 1 ≤ (t.1 - f.1).natAbs := by
    by_contra hc
    have h1 : t.1 = f.1 := by omega
    have h2 : t.2 = f.2 := by omega
    exact hne (Prod.ext h1 h2)
  refine ⟨if t.1 - f.1 > 0 then 1 else -1, if t.2 - f.2 > 0 then 1 else -1,
    ?_, ?_, habs, ?_, hk1, ?_⟩
  · by_cases h : t.1 - f.1 > 0
    · rw [if_pos h]
      exact Or.inl rfl
    · rw [if_neg h]
      exact Or.inr rfl
  · by_cases h : t.2 - f.2 > 0
    · rw [if_pos h]
      exact Or.inl rfl
    · rw [if_neg h]
      exact Or.inr rfl
  · apply Prod.ext
    · rw [rayPoint_fst]
      by_cases h : t.1 - f.1 > 0
      · rw [if_pos h]
        omega
      · rw [if_neg h]
        omega
    · rw [rayPoint_snd]
      by_cases h : t.2 - f.2 > 0
      · rw [if_pos h]
        omega
      · rw [if_neg h]
        omega
  · intro j hj1 hj2
    have hx : rayPoint f (if t.1 - f.1 > 0 then 1 else -1, if t.2 - f.2 > 0 then 1 else -1) j ∈
        pathSquares f (if t.1 - f.1 > 0 then 1 else -1, if t.2 - f.2 > 0 then 1 else -1)
          ((t.1 - f.1).natAbs - 1) :=
      mem_pathSquares.mpr ⟨j, hj1, by omega, rfl⟩
    have hz := hclear _ hx
    rw [decide_eq_true_iff] at hz
    exact hz

theorem mem_get_rook_moves {b : Board} {f t : Square} {c : PColor}
    (hfb : onBoard f = true) (htb : onBoard t = true) :
    t ∈ get_rook_moves f c b ↔
      (t ≠ f ∧ ownAt b t c = false ∧ is_straight_clear b f t = true) := by
  obtain ⟨hf1, hf2, hf3, hf4⟩ := onBoard_iff.mp hfb
  obtain ⟨ht1, ht2, ht3, ht4⟩ := onBoard_iff.mp htb
  unfold get_rook_moves get_sliding_moves
  simp only [List.flatMap_cons, List.flatMap_nil, List.append_nil, List.mem_append]
  constructor
  · intro hmem
    rcases hmem with h | h | h | h
    · obtain ⟨k, hk1, hk2, ht, hbnd, hemp, hfin⟩ := (mem_slide_go 7 f t).mp h
      refine ⟨?_, ownAt_false_iff.mpr hfin,
        straight_clear_of_vert_slide (Or.inl rfl) hk1 ht hemp⟩
      intro hc
      rw [hc] at ht
      have h2 := congrArg Prod.snd ht
      rw [rayPoint_snd] at h2
      omega
    · obtain ⟨k, hk1, hk2, ht, hbnd, hemp, hfin⟩ := (mem_slide_go 7 f t).mp h
      refine ⟨?_, ownAt_false_iff.mpr hfin,
        straight_clear_of_vert_slide (Or.inr rfl) hk1 ht hemp⟩
      intro hc
      rw [hc] at ht
      have h2 := congrArg Prod.snd ht
      rw [rayPoint_snd] at h2
      omega
    · obtain ⟨k, hk1, hk2, ht, hbnd, hemp, hfin⟩ := (mem_slide_go 7 f t).mp h
      refine ⟨?_, ownAt_false_iff.mpr hfin,
        straight_clear_of_horiz_slide (Or.inl rfl) hk1 ht hemp⟩
      intro hc
      rw [hc] at ht
      have h2 := congrArg Prod.fst ht
      rw [rayPoint_fst] at h2
      omega
    · obtain ⟨k, hk1, hk2, ht, hbnd, hemp, hfin⟩ := (mem_slide_go 7 f t).mp h
      refine ⟨?_, ownAt_false_iff.mpr hfin,
        straight_clear_of_horiz_slide (Or.inr rfl) hk1 ht hemp⟩
      intro hc
      rw [hc] at ht
      have h2 := congrArg Prod.fst ht
      rw [rayPoint_fst] at h2
      omega
  · rintro ⟨hne, hown, hclear⟩
    have hfin := ownAt_false_iff.mp hown
    have hdisj : f.1 = t.1 ∨ f.2 = t.2 := by
      by_contra hc
      push_neg at hc
      unfold is_straight_clear at hclear
      rw [if_pos ⟨hc.1, hc.2⟩] at hclear
      cases hclear
    rcases hdisj with hcol | hrow
    · obtain ⟨step, hstep, ht, hk1, hemp⟩ := vert_slide_of_straight_clear hcol hne hclear
      have htc : t.2 = f.2 + step * (((t.2 - f.2).natAbs : Nat) : Int) := by
        have h2 := congrArg Prod.snd ht
        rw [rayPoint_snd] at h2
        exact h2
      rcases hstep with h | h <;> subst h
      · left
        refine (mem_slide_go 7 f t).mpr
          ⟨(t.2 - f.2).natAbs, hk1, by omega, ht, ?_, hemp, hfin⟩
        intro j hj1 hj2
        rw [onBoard_iff, rayPoint_fst, rayPoint_snd]
        exact ⟨by omega, by omega, by omega, by omega⟩
      · right
        left
        refine (mem_slide_go 7 f t).mpr
          ⟨(t.2 - f.2).natAbs, hk1, by omega, ht, ?_, hemp, hfin⟩
        intro j hj1 hj2
        rw [onBoard_iff, rayPoint_fst, rayPoint_snd]
        exact ⟨by omega, by omega, by omega, by omega⟩
    · obtain ⟨step, hstep, ht, hk1, hemp⟩ := horiz_slide_of_straight_clear hrow hne hclear
      have htc : t.1 = f.1 + step * (((t.1 - f.1).natAbs : Nat) : Int) := by
        have h2 := congrArg Prod.fst ht
        rw [rayPoint_fst] at h2
        exact h2
      rcases hstep with h | h <;> subst h
      · right
        right
        left
        refine (mem_slide_go 7 f t).mpr
          ⟨(t.1 - f.1).natAbs, hk1, by omega, ht, ?_, hemp, hfin⟩
        intro j hj1 hj2
        rw [onBoard_iff, rayPoint_fst, rayPoint_snd]
        exact ⟨by omega, by omega, by omega, by omega⟩
      · right
        right
        right
        refine (mem_slide_go 7 f t).mpr
          ⟨(t.1 - f.1).natAbs, hk1, by omega, ht, ?_, hemp, hfin⟩
        intro j hj1 hj2
        rw [onBoard_iff, rayPoint_fst, rayPoint_snd]
        exact ⟨by omega, by omega, by omega, by omega⟩

theorem mem_get_bishop_moves {b : Board} {f t : Square} {c : PColor}
    (hfb : onBoard f = true) (htb : onBoard t = true) :
    t ∈ get_bishop_moves f c b ↔
      (t ≠ f ∧ ownAt b t c = false ∧ is_diagonal_clear b f t = true) := by
  obtain ⟨hf1, hf2, hf3, hf4⟩ := onBoard_iff.mp hfb
  obtain ⟨ht1, ht2, ht3, ht4⟩ := onBoard_iff.mp htb
  unfold get_bishop_moves get_sliding_moves
  simp only [List.flatMap_cons, List.flatMap_nil, List.append_nil, List.mem_append]
  constructor
  · intro hmem
    have hcase : ∀ cs rs : Int, (cs = 1 ∨ cs = -1) → (rs = 1 ∨ rs = -1) →
        t ∈ get_sliding_moves_go b c (cs, rs) f 7 →
        (t ≠ f ∧ ownAt b t c = false ∧ is_diagonal_clear b f t = true) := by
      intro cs rs hcs hrs h
      obtain ⟨k, hk1, hk2, ht, hbnd, hemp, hfin⟩ := (mem_slide_go 7 f t).mp h
      refine ⟨?_, ownAt_false_iff.mpr hfin, diag_clear_of_slide hcs hrs hk1 ht hemp⟩
      intro hc
      rw [hc] at ht
      have h2 := congrArg Prod.snd ht
      rw [rayPoint_snd] at h2
      rcases hrs with hr | hr <;> subst hr <;> omega
    rcases hmem with h | h | h | h
    · exact hcase 1 1 (Or.inl rfl) (Or.inl rfl) h
    · exact hcase 1 (-1) (Or.inl rfl) (Or.inr rfl) h
    · exact hcase (-1) 1 (Or.inr rfl) (Or.inl rfl) h
    · exact hcase (-1) (-1) (Or.inr rfl) (Or.inr rfl) h
  · rintro ⟨hne, hown, hclear⟩
    have hfin := ownAt_false_iff.mp hown
    obtain ⟨cs, rs, hcs, hrs, habs, ht, hk1, hemp⟩ := diag_slide_of_clear hne hclear
    have htc1 : t.1 = f.1 + cs * (((t.1 - f.1).natAbs : Nat) : Int) := by
      have h2 := congrArg Prod.fst ht
      rw [rayPoint_fst] at h2
      exact h2
    have htc2 : t.2 = f.2 + rs * (((t.1 - f.1).natAbs : Nat) : Int) := by
      have h2 := congrArg Prod.snd ht
      rw [rayPoint_snd] at h2
      exact h2
    have hbnd : ∀ j : Nat, 1 ≤ j → j ≤ (t.1 - f.1).natAbs →
        onBoard (rayPoint f (cs, rs) j) = true := by
      intro j hj1 hj2
      rw [onBoard_iff, rayPoint_fst, rayPoint_snd]
      rcases hcs with h | h <;> rcases hrs with h2 | h2 <;> subst h <;> subst h2 <;>
        exact ⟨by omega, by omega, by omega, by omega⟩
    have hmem := (mem_slide_go 7 f t).mpr
      ⟨(t.1 - f.1).natAbs, hk1, by omega, ht, hbnd, hemp, hfin⟩
    rcases hcs with h | h <;> rcases hrs with h2 | h2 <;> subst h <;> subst h2
    · exact Or.inl hmem
    · exact Or.inr (Or.inl hmem)
    · exact Or.inr (Or.inr (Or.inl hmem))
    · exact Or.inr (Or.inr (Or.inr hmem))

theorem get_queen_moves_eq (pos : Square) (c : PColor) (b : Board) :
    get_queen_moves pos c b = get_rook_moves pos c b ++ get_bishop_moves pos c b := by
  unfold get_queen_moves get_rook_moves get_bishop_moves
  simp only [List.flatMap_cons, List.flatMap_nil, List.append_nil, List.append_assoc]

theorem mem_get_queen_moves {b : Board} {f t : Square} {c : PColor}
    (hfb : onBoard f = true) (htb : onBoard t = true) :
    t ∈ get_queen_moves f c b ↔
      (t ≠ f ∧ ownAt b t c = false ∧ is_valid_queen_move b f t c = true) := by
  rw [get_queen_moves_eq, List.mem_append, mem_get_rook_moves hfb htb,
    mem_get_bishop_moves hfb htb]
  unfold is_valid_queen_move
  rw [Bool.or_eq_true]
  constructor
  · rintro (⟨h1, h2, h3⟩ | ⟨h1, h2, h3⟩)
    · exact ⟨h1, h2, Or.inl h3⟩
    · exact ⟨h1, h2, Or.inr h3⟩
  · rintro ⟨h1, h2, h3 | h3⟩
    · exact Or.inl ⟨h1, h2, h3⟩
    · exact Or.inr ⟨h1, h2, h3⟩

theorem knightOffsets_arith :
    ∀ d ∈ knightOffsets,
      (d.1.natAbs = 2 ∧ d.2.natAbs = 1) ∨ (d.1.natAbs = 1 ∧ d.2.natAbs = 2) := by
  decide

theorem mem_get_knight_moves {b : Board} {f t : Square} {c : PColor} :
    t ∈ get_knight_moves f c b ↔
      (onBoard t = true ∧ t ≠ f ∧ ownAt b t c = false ∧
        is_valid_knight_move b f t c = true) := by
  unfold get_knight_moves
  rw [List.mem_filterMap]
  constructor
  · rintro ⟨d, hd, hpred⟩
    have harith := knightOffsets_arith d hd
    dsimp only [] at hpred
    split_ifs at hpred with h1
    · cases hl : lookup b (shiftSq f d) with
      | none =>
        rw [hl] at hpred
        dsimp only [] at hpred
        rw [Option.some.injEq] at hpred
        subst hpred
        refine ⟨h1, ?_, ?_, ?_⟩
        · intro hc
          have h2 := congrArg Prod.fst hc
          rw [shiftSq_fst] at h2
          have h3 := congrArg Prod.snd hc
          rw [shiftSq_snd] at h3
          omega
        · unfold ownAt
          rw [hl]
        · unfold is_valid_knight_move
          rw [decide_eq_true_iff, shiftSq_fst, shiftSq_snd]
          omega
      | some pc =>
        rw [hl] at hpred
        dsimp only [] at hpred
        split_ifs at hpred with h2
        rw [Option.some.injEq] at hpred
        subst hpred
        refine ⟨h1, ?_, ?_, ?_⟩
        · intro hc
          have h3 := congrArg Prod.fst hc
          rw [shiftSq_fst] at h3
          have h4 := congrArg Prod.snd hc
          rw [shiftSq_snd] at h4
          omega
        · unfold ownAt
          rw [hl]
          rw [decide_eq_false_iff_not]
          exact h2
        · unfold is_valid_knight_move
          rw [decide_eq_true_iff, shiftSq_fst, shiftSq_snd]
          omega
  · rintro ⟨htb, hne, hown, hkn⟩
    unfold is_valid_knight_move at hkn
    rw [decide_eq_true_iff] at hkn
    refine ⟨(t.1 - f.1, t.2 - f.2), ?_, ?_⟩
    · simp only [knightOffsets, List.mem_cons, List.not_mem_nil, or_false, Prod.mk.injEq]
      omega
    · have hsh : shiftSq f (t.1 - f.1, t.2 - f.2) = t := by
        apply Prod.ext
        · rw [shiftSq_fst]
          ring
        · rw [shiftSq_snd]
          ring
      rw [hsh, if_pos htb]
      unfold ownAt at hown
      cases hl : lookup b t with
      | none => rfl
      | some pc =>
        dsimp only []
        rw [hl] at hown
        dsimp only [] at hown
        rw [decide_eq_false_iff_not] at hown
        rw [if_pos hown]

theorem mem_get_king_moves {b : Board} {f t : Square} {c : PColor} :
    t ∈ get_king_moves f c b ↔
      (onBoard t = true ∧ t ≠ f ∧ ownAt b t c = false ∧
        is_valid_king_move b f t c = true) := by
  unfold get_king_moves
  rw [List.mem_filterMap]
  constructor
  · rintro ⟨d, hd, hpred⟩
    have harith := kingOffsets_bounds d hd
    dsimp only [] at hpred
    split_ifs at hpred with h1 h2 h3
    rw [Option.some.injEq] at hpred
    subst hpred
    refine ⟨h1, ?_, ?_, ?_⟩
    · intro hc
      have h4 := congrArg Prod.fst hc
      rw [shiftSq_fst] at h4
      have h5 := congrArg Prod.snd hc
      rw [shiftSq_snd] at h5
      exact harith.2.2 ⟨by omega, by omega⟩
    · unfold ownAt
      cases hl : lookup b (shiftSq f d) with
      | none => rfl
      | some pc =>
        dsimp only []
        rw [hl] at h2
        dsimp only [] at h2
        rw [decide_eq_true_iff] at h2
        rw [decide_eq_false_iff_not]
        exact h2
    · unfold is_valid_king_move
      rw [if_pos ⟨by rw [shiftSq_fst]; omega, by rw [shiftSq_snd]; omega⟩]
      exact h3
  · rintro ⟨htb, hne, hown, hkg⟩
    unfold is_valid_king_move at hkg
    have hrange : (t.1 - f.1).natAbs ≤ 1 ∧ (t.2 - f.2).natAbs ≤ 1 := by
      by_contra hc
      rw [if_neg hc] at hkg
      cases hkg
    rw [if_pos hrange, Bool.not_eq_true'] at hkg
    refine ⟨(t.1 - f.1, t.2 - f.2), ?_, ?_⟩
    · have hne2 : ¬ (t.1 - f.1 = 0 ∧ t.2 - f.2 = 0) := by
        intro hc
        apply hne
        apply Prod.ext
        · omega
        · omega
      simp only [kingOffsets, List.mem_cons, List.not_mem_nil, or_false, Prod.mk.injEq]
      omega
    · have hsh : shiftSq f (t.1 - f.1, t.2 - f.2) = t := by
        apply Prod.ext
        · rw [shiftSq_fst]
          ring
        · rw [shiftSq_snd]
          ring
      rw [hsh, if_pos htb]
      have hocc : (match lookup b t with
          | some pc => decide (pc.color ≠ c)
          | none => true) = true := by
        unfold ownAt at hown
        cases hl : lookup b t with
        | none => rfl
        | some pc =>
          dsimp only []
          rw [hl] at hown
          dsimp only [] at hown
          rw [decide_eq_false_iff_not] at hown
          rw [decide_eq_true_iff]
          exact hown
      rw [if_pos hocc, if_pos (by rw [Bool.not_eq_true', hkg])]

theorem pawnDir_cases (c : PColor) : pawnDir c = 1 ∨ pawnDir c = -1 := by
  cases c <;> simp [pawnDir]

theorem mem_get_pawn_moves {b : Board} {f t : Square} {c : PColor}
    (htb : onBoard t = true) :
    t ∈ get_pawn_moves f c b ↔
      (t ≠ f ∧ ownAt b t c = false ∧ is_valid_pawn_move b f t c = true) := by
  obtain ⟨ht1, ht2, ht3, ht4⟩ := onBoard_iff.mp htb
  have hd := pawnDir_cases c
  unfold get_pawn_moves
  dsimp only []
  rw [List.mem_append]
  constructor
  · intro hmem
    rcases hmem with hmem | hmem
    · split_ifs at hmem with hb1 hb2 hb3 hb4
      · rw [List.mem_cons, List.mem_singleton] at hmem
        rcases hmem with hmem | hmem
        · subst hmem
          refine ⟨?_, ?_, ?_⟩
          · intro hc
            have h2 := congrArg Prod.snd hc
            dsimp only [] at h2
            omega
          · unfold ownAt
            rw [hb2]
          · unfold is_valid_pawn_move
            rw [if_pos rfl, if_pos rfl, decide_eq_true_iff]
            exact hb2
        · subst hmem
          obtain ⟨hb4a, hb4b⟩ := hb4
          refine ⟨?_, ?_, ?_⟩
          · intro hc
            have h2 := congrArg Prod.snd hc
            dsimp only [] at h2
            omega
          · unfold ownAt
            rw [hb4a]
          · unfold is_valid_pawn_move
            rw [if_pos rfl]
            rw [if_neg (by dsimp only []; omega)]
            rw [if_pos ⟨hb3, rfl⟩, decide_eq_true_iff]
            exact ⟨hb4a, hb4b⟩
      · rw [List.mem_singleton] at hmem
        subst hmem
        refine ⟨?_, ?_, ?_⟩
        · intro hc
          have h2 := congrArg Prod.snd hc
          dsimp only [] at h2
          omega
        · unfold ownAt
          rw [hb2]
        · unfold is_valid_pawn_move
          rw [if_pos rfl, if_pos rfl, decide_eq_true_iff]
          exact hb2
      · rw [List.mem_singleton] at hmem
        subst hmem
        refine ⟨?_, ?_, ?_⟩
        · intro hc
          have h2 := congrArg Prod.snd hc
          dsimp only [] at h2
          omega
        · unfold ownAt
          rw [hb2]
        · unfold is_valid_pawn_move
          rw [if_pos rfl, if_pos rfl, decide_eq_true_iff]
          exact hb2
      · cases hmem
      · cases hmem
    · rw [List.mem_filterMap] at hmem
      obtain ⟨dc, hdc, hpred⟩ := hmem
      have hdc2 : dc = -1 ∨ dc = 1 := by
        simp only [List.mem_cons, List.not_mem_nil, or_false] at hdc
        exact hdc
      split_ifs at hpred with h1
      cases hl : lookup b (f.1 + dc, f.2 + pawnDir c) with
      | none =>
        rw [hl] at hpred
        dsimp only [] at hpred
        cases hpred
      | some pc =>
        rw [hl] at hpred
        dsimp only [] at hpred
        split_ifs at hpred with h2
        rw [Option.some.injEq] at hpred
        subst hpred
        refine ⟨?_, ?_, ?_⟩
        · intro hc
          have h3 := congrArg Prod.fst hc
          dsimp only [] at h3
          omega
        · unfold ownAt
          rw [hl]
          rw [decide_eq_false_iff_not]
          exact h2
        · unfold is_valid_pawn_move
          rw [if_neg (by dsimp only []; omega)]
          rw [if_pos ⟨by dsimp only []; omega, rfl⟩]
          rw [hl]
          rw [decide_eq_true_iff]
          exact h2
  · rintro ⟨hne, hown, hval⟩
    unfold is_valid_pawn_move at hval
    by_cases hcol : f.1 = t.1
    · rw [if_pos hcol] at hval
      left
      by_cases h1 : t.2 = f.2 + pawnDir c
      · rw [if_pos h1, decide_eq_true_iff] at hval
        have hteq : t = (f.1, f.2 + pawnDir c) := Prod.ext hcol.symm h1
        rw [if_pos (by rw [decide_eq_true_iff]; omega)]
        rw [← hteq]
        rw [if_pos hval]
        exact List.mem_cons_self _ _
      · rw [if_neg h1] at hval
        by_cases h2 : f.2 = startRow c ∧ t.2 = f.2 + 2 * pawnDir c
        · rw [if_pos h2, decide_eq_true_iff] at hval
          obtain ⟨hv1, hv2⟩ := hval
          obtain ⟨h2a, h2b⟩ := h2
          have hteq2 : t = (f.1, f.2 + 2 * pawnDir c) := Prod.ext hcol.symm h2b
          have hv1b : lookup b (f.1, f.2 + 2 * pawnDir c) = none := by
            rw [← hteq2]
            exact hv1
          have hmid : 1 ≤ f.2 + pawnDir c ∧ f.2 + pawnDir c ≤ 8 := by
            cases c <;> simp [startRow] at h2a <;> simp [pawnDir] <;> omega
          rw [if_pos (by rw [decide_eq_true_iff]; exact hmid)]
          rw [if_pos hv2, if_pos h2a, if_pos ⟨hv1b, hv2⟩]
          rw [List.mem_cons, List.mem_singleton]
          right
          exact hteq2
        · rw [if_neg h2] at hval
          cases hval
    · rw [if_neg hcol] at hval
      right
      by_cases h3 : (t.1 - f.1).natAbs = 1 ∧ t.2 = f.2 + pawnDir c
      · rw [if_pos h3] at hval
        cases hl : lookup b t with
        | none =>
          rw [hl] at hval
          cases hval
        | some pc =>
          rw [hl] at hval
          dsimp only [] at hval
          rw [decide_eq_true_iff] at hval
          rw [List.mem_filterMap]
          refine ⟨t.1 - f.1, ?_, ?_⟩
          · simp only [List.mem_cons, List.not_mem_nil, or_false]
            omega
          · have hteq : ((f.1 + (t.1 - f.1), f.2 + pawnDir c) : Square) = t := by
              apply Prod.ext
              · dsimp only []
                ring
              · dsimp only []
                exact h3.2.symm
            rw [hteq, if_pos htb, hl]
            dsimp only []
            rw [if_pos hval]
      · rw [if_neg h3] at hval
        cases hval

theorem bool_eq_false_of_not {x : Bool} (h : ¬ x = true) : x = false := by
  cases x
  · rfl
  · exact absurd rfl h

theorem bool_eq_true_of_not_not {x : Bool} (h : ¬ (!x) = true) : x = true := by
  cases x
  · exact absurd rfl h
  · rfl

theorem mem_pseudo_moves_iff {b : Board} {f t : Square} {pc : Piece}
    (hfb : onBoard f = true) (htb : onBoard t = true) :
    t ∈ get_piece_pseudo_moves f pc b ↔
      (t ≠ f ∧ ownAt b t pc.color = false ∧ is_pseudo_legal_move b f t pc = true) := by
  obtain ⟨cc, ty⟩ := pc
  cases ty <;> unfold get_piece_pseudo_moves is_pseudo_legal_move <;> dsimp only []
  · exact mem_get_pawn_moves htb
  · rw [mem_get_knight_moves]
    constructor
    · rintro ⟨_, h⟩
      exact h
    · intro h
      exact ⟨htb, h⟩
  · rw [mem_get_bishop_moves hfb htb]
    exact Iff.rfl
  · rw [mem_get_rook_moves hfb htb]
    exact Iff.rfl
  · exact mem_get_queen_moves hfb htb
  · rw [mem_get_king_moves]
    constructor
    · rintro ⟨_, h⟩
      exact h
    · intro h
      exact ⟨htb, h⟩

theorem mem_get_all_legal_moves {b : Board} {c : PColor} {f t : Square}
    (hnd : nodupKeys b) :
    (f, t) ∈ get_all_legal_moves b c ↔
      ∃ pc : Piece, lookup b f = some pc ∧ pc.color = c ∧
        t ∈ get_piece_pseudo_moves f pc b ∧ is_move_safe_for_king b f t c = true := by
  unfold get_all_legal_moves
  rw [List.mem_flatMap]
  constructor
  · rintro ⟨e, he, hmem⟩
    obtain ⟨es, ep⟩ := e
    by_cases hc : ep.color = c
    · rw [if_pos hc] at hmem
      rw [List.mem_map] at hmem
      obtain ⟨x, hx, hpair⟩ := hmem
      rw [List.mem_filter] at hx
      obtain ⟨hx1, hx2⟩ := hx
      have h1 := congrArg Prod.fst hpair
      have h2 := congrArg Prod.snd hpair
      dsimp only [] at h1 h2
      subst h1
      subst h2
      exact ⟨ep, lookup_of_mem_nodup hnd he, hc, hx1, hx2⟩
    · rw [if_neg hc] at hmem
      cases hmem
  · rintro ⟨pc, hl, hc, hmem, hsafe⟩
    refine ⟨(f, pc), lookup_eq_some_mem hl, ?_⟩
    rw [if_pos hc]
    rw [List.mem_map]
    refine ⟨t, ?_, rfl⟩
    rw [List.mem_filter]
    exact ⟨hmem, hsafe⟩

theorem valid_move_fst_iff {b : Board} {f t : Square} {c : PColor} :
    (is_valid_move b f t c).1 = true ↔
      ∃ pc : Piece, lookup b f = some pc ∧ pc.color = c ∧ t ≠ f ∧
        ownAt b t pc.color = false ∧ is_pseudo_legal_move b f t pc = true ∧
        is_move_legal_king_safety b f t pc.color = true := by
  unfold is_valid_move
  cases hl : lookup b f with
  | none =>
    dsimp only []
    constructor
    · intro h
      cases h
    · rintro ⟨pc, hpc, _⟩
      cases hpc
  | some pc0 =>
    dsimp only []
    split_ifs with h1 h2 h3 h4 h5
    · constructor
      · intro h
        cases h
      · rintro ⟨pc, hpc, hc, _⟩
        rw [Option.some.injEq] at hpc
        subst hpc
        exact absurd hc h1
    · constructor
      · intro h
        cases h
      · rintro ⟨pc, hpc, _, hne, _⟩
        exact absurd h2 hne
    · constructor
      · intro h
        cases h
      · rintro ⟨pc, hpc, _, _, hown, _⟩
        rw [Option.some.injEq] at hpc
        subst hpc
        rw [hown] at h3
        cases h3
    · constructor
      · intro h
        cases h
      · rintro ⟨pc, hpc, _, _, _, hps, _⟩
        rw [Option.some.injEq] at hpc
        subst hpc
        rw [hps] at h4
        cases h4
    · constructor
      · intro h
        cases h
      · rintro ⟨pc, hpc, _, _, _, _, hsafe⟩
        rw [Option.some.injEq] at hpc
        subst hpc
        rw [hsafe] at h5
        cases h5
    · constructor
      · intro _
        refine ⟨pc0, rfl, not_not.mp h1, h2, bool_eq_false_of_not h3,
          bool_eq_true_of_not_not h4, bool_eq_true_of_not_not h5⟩
      · intro _
        rfl

/-- C1: for every well-formed position (a dict with unique, on-board keys),
every side and every on-board destination, the set of (from, to) pairs
produced by the bot's legal-move enumeration get_all_legal_moves is exactly
the set of pairs accepted by ChessRules.is_valid_move on the same position:
enumeration and single-move validation agree in both directions. -/
theorem c1_enumeration_matches_validation (b : Board) (c : PColor) (f t : Square)
    (hnd : nodupKeys b) (hob : keysOnBoard b) (htb : onBoard t = true) :
    (f, t) ∈ get_all_legal_moves b c ↔ (is_valid_move b f t c).1 = true := by
  rw [mem_get_all_legal_moves hnd, valid_move_fst_iff]
  constructor
  · rintro ⟨pc, hl, hc, hmem, hsafe⟩
    have hfb : onBoard f = true := hob (f, pc) (lookup_eq_some_mem hl)
    obtain ⟨hne, hown, hps⟩ := (mem_pseudo_moves_iff hfb htb).mp hmem
    refine ⟨pc, hl, hc, hne, hown, hps, ?_⟩
    rw [hc]
    exact hsafe
  · rintro ⟨pc, hl, hc, hne, hown, hps, hsafe⟩
    have hfb : onBoard f = true := hob (f, pc) (lookup_eq_some_mem hl)
    refine ⟨pc, hl, hc, (mem_pseudo_moves_iff hfb htb).mpr ⟨hne, hown, hps⟩, ?_⟩
    unfold is_move_safe_for_king
    rw [← hc]
    exact hsafe

/-- C1 witness: the initial position is a well-formed dict and the pawn push
a2-a3 is both enumerated and validated. -/
theorem c1_witness :
    nodupKeys initialize_board ∧ keysOnBoard initialize_board ∧ onBoard (1, 3) = true ∧
    ((((1, 2) : Square), ((1, 3) : Square)) ∈ get_all_legal_moves initialize_board PColor.w ↔
      (is_valid_move initialize_board (1, 2) (1, 3) PColor.w).1 = true) :=
  ⟨by decide, by decide, by decide,
    c1_enumeration_matches_validation initialize_board PColor.w (1, 2) (1, 3)
      (by decide) (by decide) (by decide)⟩
